import Mathlib

/-!
Shallow embedding of the nitro JIT host-emulation layer
(`arbitrator/jit/src/gostack.rs` and `arbitrator/jit/src/runtime.rs`).

Guest linear memory is a finite byte region; machine integers are `Nat`
with explicit `% 2^w` where the Rust code does wrapping arithmetic, and
saturating operations where the code uses `saturating_mul`/`saturating_add`.
Fallible memory accesses (wasmer `deref(..).unwrap()`, slice indexing)
return `Option`: `none` models the fatal abort (panic) path.
-/

namespace NitroJit

/-- Wrap modulus for 32-bit machine integers. -/
def u32Mod : Nat := 4294967296

/-- Wrap modulus for 64-bit machine integers. -/
def u64Mod : Nat := 18446744073709551616

/-- Guest linear memory: a byte-addressable region of `size` bytes.
`data` is observed modulo 256 at each in-bounds address. -/
structure Mem where
  size : Nat
  data : Nat → Nat

/-- Read one byte; fatal (`none`) when the address is out of bounds. -/
def readByte (m : Mem) (a : Nat) : Option Nat :=
  if a < m.size then some (m.data a % 256) else none

/-- Write one byte (value truncated to 8 bits); fatal when out of bounds. -/
def writeByte (m : Mem) (a b : Nat) : Option Mem :=
  if a < m.size then some ⟨m.size, fun i => if i = a then b % 256 else m.data i⟩ else none

/-- Read `n` consecutive bytes starting at `a`. -/
def readBytes : Mem → Nat → Nat → Option (List Nat)
  | _, _, 0 => some []
  | m, a, n + 1 =>
    match readByte m a with
    | some b => (readBytes m (a + 1) n).map (b :: ·)
    | none => none

/-- Write the bytes `bs` consecutively starting at `a`. -/
def writeBytes : Mem → Nat → List Nat → Option Mem
  | m, _, [] => some m
  | m, a, b :: bs =>
    match writeByte m a b with
    | some m' => writeBytes m' (a + 1) bs
    | none => none

/-- Value of a little-endian byte list (bytes assumed `< 256`). -/
def leVal : List Nat → Nat
  | [] => 0
  | b :: bs => b + 256 * leVal bs

/-- The `n` low-order bytes of `v`, least significant first. -/
def leBytes : Nat → Nat → List Nat
  | 0, _ => []
  | n + 1, v => v % 256 :: leBytes n (v / 256)

theorem leBytes_length (n v : Nat) : (leBytes n v).length = n := by
  induction n generalizing v with
  | zero => rfl
  | succ n ih => simp [leBytes, ih]

theorem leBytes_lt (n v : Nat) : ∀ b ∈ leBytes n v, b < 256 := by
  induction n generalizing v with
  | zero => simp [leBytes]
  | succ n ih =>
    intro b hb
    simp only [leBytes, List.mem_cons] at hb
    rcases hb with h | h
    · omega
    · exact ih _ _ h

theorem leBytes_map_mod (n v : Nat) : (leBytes n v).map (· % 256) = leBytes n v := by
  induction n generalizing v with
  | zero => rfl
  | succ n ih => simp [leBytes, Nat.mod_mod_of_dvd, ih]

theorem leVal_leBytes (n v : Nat) : leVal (leBytes n v) = v % 256 ^ n := by
  induction n generalizing v with
  | zero => simp [leBytes, leVal, Nat.mod_one]
  | succ n ih =>
    have hK : 0 < 256 ^ n := pow_pos (by norm_num) n
    have hq : v / 256 % 256 ^ n < 256 ^ n := Nat.mod_lt _ hK
    have hr : v % 256 < 256 := Nat.mod_lt _ (by norm_num)
    have h1 : (256 * (v / 256)) % (256 * 256 ^ n) = 256 * (v / 256 % 256 ^ n) :=
      Nat.mul_mod_mul_left 256 (v / 256) (256 ^ n)
    have h2 : v % (256 * 256 ^ n) = v % 256 + 256 * (v / 256 % 256 ^ n) := by
      conv_lhs => rw [← Nat.div_add_mod v 256]
      rw [Nat.add_mod, h1, Nat.mod_eq_of_lt (by omega : v % 256 < 256 * 256 ^ n),
        Nat.mod_eq_of_lt (by omega)]
      omega
    calc leVal (leBytes (n+1) v) = v % 256 + 256 * (v / 256 % 256 ^ n) := by
          simp [leBytes, leVal, ih]
      _ = v % 256 ^ (n+1) := by rw [pow_succ, Nat.mul_comm (256 ^ n) 256, h2]

theorem leBytes_take (k n v : Nat) (h : k ≤ n) :
    (leBytes n v).take k = leBytes k v := by
  induction k generalizing n v with
  | zero => rfl
  | succ k ih =>
    cases n with
    | zero => omega
    | succ n => simp [leBytes, List.take, ih n (v / 256) (Nat.le_of_succ_le_succ h)]

theorem writeByte_size {m : Mem} {a b : Nat} {m' : Mem} (h : writeByte m a b = some m') :
    m'.size = m.size := by
  unfold writeByte at h
  split at h
  · cases h; rfl
  · cases h

theorem writeByte_data {m : Mem} {a b : Nat} {m' : Mem} (h : writeByte m a b = some m') :
    ∀ i, m'.data i = if i = a then b % 256 else m.data i := by
  unfold writeByte at h
  split at h
  · cases h; intro i; rfl
  · cases h

theorem writeByte_isSome {m : Mem} {a b : Nat} :
    (writeByte m a b).isSome = true ↔ a < m.size := by
  unfold writeByte
  split <;> simp_all

theorem writeBytes_size {bs : List Nat} {m : Mem} {a : Nat} {m' : Mem}
    (h : writeBytes m a bs = some m') : m'.size = m.size := by
  induction bs generalizing m a with
  | nil => cases h; rfl
  | cons b bs ih =>
    unfold writeBytes at h
    cases hw : writeByte m a b with
    | none => rw [hw] at h; cases h
    | some m1 => rw [hw] at h; rw [ih h, writeByte_size hw]

theorem writeBytes_some_of_le {bs : List Nat} {m : Mem} {a : Nat}
    (h : a + bs.length ≤ m.size) : (writeBytes m a bs).isSome = true := by
  induction bs generalizing m a with
  | nil => rfl
  | cons b bs ih =>
    have ha : a < m.size := by simp only [List.length_cons] at h; omega
    unfold writeBytes
    cases hw : writeByte m a b with
    | none =>
      have : (writeByte m a b).isSome = true := writeByte_isSome.mpr ha
      rw [hw] at this; cases this
    | some m1 =>
      have hsz : m1.size = m.size := writeByte_size hw
      apply ih
      simp only [List.length_cons] at h
      omega

theorem writeBytes_none {bs : List Nat} {m : Mem} {a : Nat}
    (hn : bs ≠ []) (h : m.size < a + bs.length) : writeBytes m a bs = none := by
  induction bs generalizing m a with
  | nil => exact absurd rfl hn
  | cons b bs ih =>
    unfold writeBytes
    cases hw : writeByte m a b with
    | none => rfl
    | some m1 =>
      have ha : a < m.size := by
        have : (writeByte m a b).isSome = true := by rw [hw]; rfl
        exact writeByte_isSome.mp this
      have hsz : m1.size = m.size := writeByte_size hw
      cases bs with
      | nil => simp only [List.length_cons, List.length_nil] at h; omega
      | cons c cs =>
        apply ih (by simp)
        simp only [List.length_cons] at h ⊢
        omega

theorem writeBytes_data_outside {bs : List Nat} {m : Mem} {a : Nat} {m' : Mem}
    (h : writeBytes m a bs = some m') :
    ∀ i, (i < a ∨ a + bs.length ≤ i) → m'.data i = m.data i := by
  induction bs generalizing m a with
  | nil => cases h; intro i _; rfl
  | cons b bs ih =>
    unfold writeBytes at h
    cases hw : writeByte m a b with
    | none => rw [hw] at h; cases h
    | some m1 =>
      rw [hw] at h
      intro i hi
      have h1 : m'.data i = m1.data i := by
        apply ih h
        simp only [List.length_cons] at hi
        omega
      rw [h1, writeByte_data hw]
      have : i ≠ a := by simp only [List.length_cons] at hi; omega
      simp [this]

theorem readBytes_some_of_le {n : Nat} {m : Mem} {a : Nat} (h : a + n ≤ m.size) :
    (readBytes m a n).isSome = true := by
  induction n generalizing a with
  | zero => rfl
  | succ n ih =>
    have ha : a < m.size := by omega
    unfold readBytes readByte
    rw [if_pos ha]
    have h1 : (readBytes m (a + 1) n).isSome = true := ih (a := a + 1) (by omega)
    cases hr : readBytes m (a + 1) n with
    | none => rw [hr] at h1; cases h1
    | some bs => rfl

theorem readBytes_none {n : Nat} {m : Mem} {a : Nat}
    (hn : n ≠ 0) (h : m.size < a + n) : readBytes m a n = none := by
  induction n generalizing a with
  | zero => exact absurd rfl hn
  | succ n ih =>
    unfold readBytes readByte
    by_cases ha : a < m.size
    · rw [if_pos ha]
      cases n with
      | zero => omega
      | succ k => rw [ih (a := a + 1) (by simp) (by omega)]; rfl
    · rw [if_neg ha]

theorem readBytes_congr {n : Nat} {m m' : Mem} {a : Nat}
    (hsz : m'.size = m.size)
    (hdata : ∀ i, a ≤ i → i < a + n → m'.data i = m.data i) :
    readBytes m' a n = readBytes m a n := by
  induction n generalizing a with
  | zero => rfl
  | succ n ih =>
    unfold readBytes readByte
    rw [hsz, hdata a (Nat.le_refl a) (by omega)]
    split
    · rw [ih (fun i h1 h2 => hdata i (by omega) (by omega))]
    · rfl

theorem readBytes_writeBytes {bs : List Nat} {m : Mem} {a : Nat} {m' : Mem}
    (h : writeBytes m a bs = some m') :
    readBytes m' a bs.length = some (bs.map (· % 256)) := by
  induction bs generalizing m a with
  | nil => cases h; rfl
  | cons b bs ih =>
    unfold writeBytes at h
    cases hw : writeByte m a b with
    | none => rw [hw] at h; cases h
    | some m1 =>
      rw [hw] at h
      have ha : a < m.size := by
        have : (writeByte m a b).isSome = true := by rw [hw]; rfl
        exact writeByte_isSome.mp this
      have hsz1 : m1.size = m.size := writeByte_size hw
      have hsz' : m'.size = m1.size := writeBytes_size h
      have hlt : a < m'.size := by omega
      have hda : m'.data a = m1.data a :=
        writeBytes_data_outside h a (Or.inl (by omega))
      have hrb : readByte m' a = some (b % 256) := by
        unfold readByte
        rw [if_pos hlt, hda, writeByte_data hw]
        simp [Nat.mod_mod_of_dvd]
      show readBytes m' a (bs.length + 1) = _
      unfold readBytes
      rw [hrb, ih h]
      rfl

theorem writeBytes_append {bs1 bs2 : List Nat} {m : Mem} {a : Nat} :
    writeBytes m a (bs1 ++ bs2) =
      (writeBytes m a bs1).bind (fun m1 => writeBytes m1 (a + bs1.length) bs2) := by
  induction bs1 generalizing m a with
  | nil => simp [writeBytes]
  | cons b bs1 ih =>
    cases hw : writeByte m a b with
    | none => simp [writeBytes, hw]
    | some m1 =>
      simp only [List.cons_append, writeBytes, hw, List.append_eq, ih, List.length_cons,
        Option.some_bind]
      have h : ∀ k : Nat, a + 1 + k = a + (k + 1) := by omega
      simp only [h]

theorem readBytes_split {n1 n2 : Nat} {m : Mem} {a : Nat} {bs : List Nat}
    (h : readBytes m a (n1 + n2) = some bs) :
    ∃ b1 b2, readBytes m a n1 = some b1 ∧ readBytes m (a + n1) n2 = some b2 ∧
      bs = b1 ++ b2 := by
  induction n1 generalizing a bs with
  | zero =>
    refine ⟨[], bs, rfl, ?_, rfl⟩
    simpa using h
  | succ n1 ih =>
    have hadd : n1 + 1 + n2 = (n1 + n2) + 1 := by omega
    rw [hadd] at h
    unfold readBytes at h
    cases hr : readByte m a with
    | none => rw [hr] at h; cases h
    | some b =>
      rw [hr] at h
      cases hrest : readBytes m (a + 1) (n1 + n2) with
      | none => rw [hrest] at h; cases h
      | some rest =>
        rw [hrest] at h
        obtain ⟨b1, b2, h1, h2, h3⟩ := ih hrest
        refine ⟨b :: b1, b2, ?_, ?_, ?_⟩
        · unfold readBytes; rw [hr, h1]; rfl
        · have : a + (n1 + 1) = a + 1 + n1 := by omega
          rw [this]; exact h2
        · simp only [Option.map_some] at h
          cases h; simp [h3]

/-- Slot address of argument `arg`: `start + (arg + 1) * 8` in u32 arithmetic
(`GoStack::offset`). -/
def goOffset (start arg : Nat) : Nat := (start + (arg + 1) * 8) % u32Mod

/-- `GoStack::read_u8_ptr`: fatal (`none`) out of bounds. -/
def read_u8_ptr (m : Mem) (p : Nat) : Option Nat := readByte m p

/-- `GoStack::read_u32_ptr`: little-endian 32-bit load, fatal out of bounds. -/
def read_u32_ptr (m : Mem) (p : Nat) : Option Nat := (readBytes m p 4).map leVal

/-- `GoStack::read_u64_ptr`: little-endian 64-bit load, fatal out of bounds. -/
def read_u64_ptr (m : Mem) (p : Nat) : Option Nat := (readBytes m p 8).map leVal

/-- `GoStack::write_u8_ptr`. -/
def write_u8_ptr (m : Mem) (p x : Nat) : Option Mem := writeByte m p x

/-- `GoStack::write_u32_ptr`: little-endian 32-bit store. -/
def write_u32_ptr (m : Mem) (p x : Nat) : Option Mem := writeBytes m p (leBytes 4 x)

/-- `GoStack::write_u64_ptr`: little-endian 64-bit store. -/
def write_u64_ptr (m : Mem) (p x : Nat) : Option Mem := writeBytes m p (leBytes 8 x)

/-- `GoStack::read_u8`. -/
def read_u8 (m : Mem) (start arg : Nat) : Option Nat := read_u8_ptr m (goOffset start arg)

/-- `GoStack::read_u32`. -/
def read_u32 (m : Mem) (start arg : Nat) : Option Nat := read_u32_ptr m (goOffset start arg)

/-- `GoStack::read_u64`. -/
def read_u64 (m : Mem) (start arg : Nat) : Option Nat := read_u64_ptr m (goOffset start arg)

/-- `GoStack::write_u8`. -/
def write_u8 (m : Mem) (start arg x : Nat) : Option Mem := write_u8_ptr m (goOffset start arg) x

/-- `GoStack::write_u32`. -/
def write_u32 (m : Mem) (start arg x : Nat) : Option Mem := write_u32_ptr m (goOffset start arg) x

/-- `GoStack::write_u64`. -/
def write_u64 (m : Mem) (start arg x : Nat) : Option Mem := write_u64_ptr m (goOffset start arg) x

/-- `GoStack::read_slice`: the pointer and length are u64 values that must fit
a u32 (`try_from ... expect`), and the byte range must lie inside the memory
(Rust slice indexing panics otherwise); any violation is fatal. -/
def read_slice (m : Mem) (ptr len : Nat) : Option (List Nat) :=
  if ptr < u32Mod ∧ len < u32Mod ∧ ptr + len ≤ m.size then readBytes m ptr len else none

/-- `GoStack::write_slice`: the pointer must fit a u32 and the target range must
lie inside the memory (the wasmer subarray view panics otherwise). -/
def write_slice (m : Mem) (ptr : Nat) (src : List Nat) : Option Mem :=
  if ptr < u32Mod ∧ ptr + src.length ≤ m.size then writeBytes m ptr src else none

/-- State of the Pcg32 (Lcg64Xsh32) generator: 64-bit LCG state and odd
increment. The repository uses the `rand_pcg` crate; this is that crate's
published algorithm, and the repository only constructs the generator with
the fixed seed recorded in `WasmEnv::default`. -/
structure Pcg32 where
  state : Nat
  inc : Nat
deriving DecidableEq

/-- The Lcg64Xsh32 multiplier constant. -/
def pcgMultiplier : Nat := 6364136223846793005

/-- One LCG state advance: `state * MULTIPLIER + increment` in u64. -/
def pcgStepState (s i : Nat) : Nat := (s * pcgMultiplier + i) % u64Mod

/-- `Pcg32::new(state, stream)`: increment `(stream << 1) | 1`, add to the
state, then one step. -/
def pcgNew (state stream : Nat) : Pcg32 :=
  let inc := (stream % u64Mod * 2 + 1) % u64Mod
  let s0 := (state % u64Mod + inc) % u64Mod
  ⟨pcgStepState s0 inc, inc⟩

/-- 32-bit rotate right by `r` (Rust `u32::rotate_right` semantics). -/
def rotr32 (x r : Nat) : Nat :=
  x % u32Mod / 2 ^ (r % 32) + x % u32Mod % 2 ^ (r % 32) * 2 ^ (32 - r % 32)

/-- `RngCore::next_u32` for Lcg64Xsh32 (XSH-RR output function), returning the
output and the advanced generator. -/
def pcgNext (g : Pcg32) : Nat × Pcg32 :=
  let s := g.state
  let rot := s / 2 ^ 59
  let xsh := (Nat.xor (s / 2 ^ 18) s / 2 ^ 27) % u32Mod
  (rotr32 xsh rot, ⟨pcgStepState s g.inc, g.inc⟩)

/-- `TimeoutInfo`: a scheduled timer entry `(fire time in ns, id)`. -/
structure TimeoutInfo where
  time : Nat
  id : Nat
deriving DecidableEq

/-- The source's `Ord for TimeoutInfo`: `other.time.cmp(&self.time)` then
`other.id.cmp(&self.id)` — both comparisons inverted, so the max-heap pops
ascending `(time, id)`. -/
def tiCmp (self other : TimeoutInfo) : Ordering :=
  (compare other.time self.time).then (compare other.id self.id)

/-- Strict ascending lexicographic order on `(time, id)`. -/
def tiLt (a b : TimeoutInfo) : Prop :=
  a.time < b.time ∨ (a.time = b.time ∧ a.id < b.id)

/-- Non-strict ascending lexicographic order on `(time, id)`. -/
def tiLe (a b : TimeoutInfo) : Prop :=
  a.time < b.time ∨ (a.time = b.time ∧ a.id ≤ b.id)

instance : DecidablePred (fun p : TimeoutInfo × TimeoutInfo => tiLt p.1 p.2) := by
  intro p; unfold tiLt; infer_instance

/-- `TimeoutState`: the heap contents (as the multiset of pushed entries),
the live-id set, and the id allocator. -/
structure TimeoutState where
  times : List TimeoutInfo
  pending_ids : List Nat
  next_id : Nat
deriving DecidableEq

/-- `BTreeSet::insert` on the live-id set (set semantics). -/
def insertId (id : Nat) (s : List Nat) : List Nat := if id ∈ s then s else id :: s

/-- The shared environment (`WasmEnv`), restricted to the deterministic state
this core owns: virtual clock, clock step, timer state and RNG. -/
structure WasmEnv where
  time : Nat
  time_interval : Nat
  timeouts : TimeoutState
  rng : Pcg32
deriving DecidableEq

/-- `WasmEnv::default`: zero clock, 10 ms interval, empty timers, fixed seed. -/
def defaultEnv : WasmEnv :=
  { time := 0
    time_interval := 10000000
    timeouts := ⟨[], [], 0⟩
    rng := pcgNew 0xcafef00dd15ea5e5 0xa02bdbf7bb3c0a7 }

/-- u64 `saturating_mul`. -/
def satMul64 (a b : Nat) : Nat := min (a * b) (u64Mod - 1)

/-- u64 `saturating_add`. -/
def satAdd64 (a b : Nat) : Nat := min (a + b) (u64Mod - 1)

/-- Host-visible side effects of a call: a `go_debug` print, a byte-stream
write with its fd, or the warning printed when clearing an unknown timer. -/
inductive OutEvent
  | debugPrint (x : Nat)
  | writeOut (fd : Nat) (bytes : List Nat)
  | warnClear (id : Nat)
deriving DecidableEq

/-- How a host call hands control back: normally, or via the `Escape::Exit`
control-flow escape carrying the guest's status code. A fatal contract
violation is the `none` of the surrounding `Option`. -/
inductive Outcome
  | normal
  | exited (code : Nat)
deriving DecidableEq

/-- Result of one host call: updated environment and memory, outcome, events. -/
def CallResult : Type := WasmEnv × Mem × Outcome × List OutEvent

/-- `runtime::go_debug`. -/
def go_debug (env : WasmEnv) (m : Mem) (x : Nat) : Option CallResult :=
  some (env, m, .normal, [.debugPrint x])

/-- `runtime::reset_memory_data_view`: explicit no-op. -/
def reset_memory_data_view (env : WasmEnv) (m : Mem) (_x : Nat) : Option CallResult :=
  some (env, m, .normal, [])

/-- `runtime::wasm_exit`: read the status code from slot 0 and escape. -/
def wasm_exit (env : WasmEnv) (m : Mem) (sp : Nat) : Option CallResult := do
  let code ← read_u32 m sp 0
  pure (env, m, .exited code, [])

/-- `runtime::wasm_write`: fd from slot 0, buffer pointer from slot 1, length
from slot 2; copies the bytes out of guest memory and emits them on the host
stream selected by fd. -/
def wasm_write (env : WasmEnv) (m : Mem) (sp : Nat) : Option CallResult := do
  let fd ← read_u64 m sp 0
  let ptr ← read_u64 m sp 1
  let len ← read_u32 m sp 2
  let buf ← read_slice m ptr len
  pure (env, m, .normal, [.writeOut fd buf])

/-- `runtime::nanotime1`: advance the clock, write it to slot 0 as u64. -/
def nanotime1 (env : WasmEnv) (m : Mem) (sp : Nat) : Option CallResult := do
  let t := (env.time + env.time_interval) % u64Mod
  let m' ← write_u64 m sp 0 t
  pure ({ env with time := t }, m', .normal, [])

/-- `runtime::walltime`: advance the clock, write seconds (u64, slot 0) and
nanosecond remainder cast to u32 (slot 1). -/
def walltime (env : WasmEnv) (m : Mem) (sp : Nat) : Option CallResult := do
  let t := (env.time + env.time_interval) % u64Mod
  let m1 ← write_u64 m sp 0 (t / 1000000000)
  let m2 ← write_u32 m1 sp 1 (t % 1000000000 % u32Mod)
  pure ({ env with time := t }, m2, .normal, [])

/-- `runtime::walltime1`: advance the clock, write seconds (u64, slot 0) and
nanosecond remainder (u64, slot 1). -/
def walltime1 (env : WasmEnv) (m : Mem) (sp : Nat) : Option CallResult := do
  let t := (env.time + env.time_interval) % u64Mod
  let m1 ← write_u64 m sp 0 (t / 1000000000)
  let m2 ← write_u64 m1 sp 1 (t % 1000000000)
  pure ({ env with time := t }, m2, .normal, [])

/-- The pure timer mutation inside `schedule_timeout_event`, given the already
computed fire time: allocate `next_id` (u32 wrapping increment), push the
entry, insert the id into the live set; returns the new state and the id. -/
def tsSched (fire : Nat) (ts : TimeoutState) : TimeoutState × Nat :=
  let id := ts.next_id
  ({ times := ⟨fire, id⟩ :: ts.times
     pending_ids := insertId id ts.pending_ids
     next_id := (id + 1) % u32Mod }, id)

/-- `runtime::schedule_timeout_event`: delay (ms) from slot 0, saturating
conversion to ns, saturating addition of the current virtual time; allocates
an id, records the entry, and writes the id to slot 1 as u32. -/
def schedule_timeout_event (env : WasmEnv) (m : Mem) (sp : Nat) : Option CallResult := do
  let d ← read_u64 m sp 0
  let fire := satAdd64 (satMul64 d 1000000) env.time
  let (ts', id) := tsSched fire env.timeouts
  let m' ← write_u32 m sp 1 id
  pure ({ env with timeouts := ts' }, m', .normal, [])

/-- `runtime::clear_timeout_event`: id from slot 0; remove it from the live
set if present, otherwise print a warning and change nothing. -/
def clear_timeout_event (env : WasmEnv) (m : Mem) (sp : Nat) : Option CallResult := do
  let id ← read_u32 m sp 0
  if id ∈ env.timeouts.pending_ids then
    pure ({ env with timeouts :=
      { env.timeouts with pending_ids := env.timeouts.pending_ids.erase id } },
      m, .normal, [])
  else
    pure (env, m, .normal, [.warnClear id])

/-- The byte tail of `get_random_data`: write `len` (1..=3) bytes of the extra
word `w`, least significant first, shifting right by 8 each step; the pointer
advances in u32 arithmetic. -/
def fillRem : Mem → Nat → Nat → Nat → Option Mem
  | m, _, 0, _ => some m
  | m, ptr, n + 1, w =>
    match write_u8_ptr m ptr w with
    | some m' => fillRem m' ((ptr + 1) % u32Mod) n (w / 256)
    | none => none

/-- The loop of `get_random_data`: whole 32-bit generator outputs while at
least 4 bytes remain, then at most one extra output for the tail. -/
def fillRandom (m : Mem) (ptr len : Nat) (rng : Pcg32) : Option (Mem × Pcg32) :=
  if _h : 4 ≤ len then
    match write_u32_ptr m ptr (pcgNext rng).1 with
    | some m' => fillRandom m' ((ptr + 4) % u32Mod) (len - 4) (pcgNext rng).2
    | none => none
  else if 0 < len then
    (fillRem m ptr len (pcgNext rng).1).map (fun m' => (m', (pcgNext rng).2))
  else
    some (m, rng)
termination_by len
decreasing_by omega

/-- `runtime::get_random_data`: destination pointer (must fit u32) from
slot 0, byte length from slot 1, then the fill loop. -/
def get_random_data (env : WasmEnv) (m : Mem) (sp : Nat) : Option CallResult := do
  let p ← read_u64 m sp 0
  if p < u32Mod then
    let len ← read_u64 m sp 1
    let (m', rng') ← fillRandom m p len env.rng
    pure ({ env with rng := rng' }, m', .normal, [])
  else
    none

/-- The host-function catalogue of `runtime.rs`, each constructor carrying the
single value the interpreter passes it. -/
inductive HostCall
  | goDebug (x : Nat)
  | resetMemoryDataView (x : Nat)
  | wasmExit (sp : Nat)
  | wasmWrite (sp : Nat)
  | nanotime1 (sp : Nat)
  | walltime (sp : Nat)
  | walltime1 (sp : Nat)
  | scheduleTimeoutEvent (sp : Nat)
  | clearTimeoutEvent (sp : Nat)
  | getRandomData (sp : Nat)
deriving DecidableEq

/-- Dispatch one host call. -/
def step (c : HostCall) (env : WasmEnv) (m : Mem) : Option CallResult :=
  match c with
  | .goDebug x => go_debug env m x
  | .resetMemoryDataView x => reset_memory_data_view env m x
  | .wasmExit sp => wasm_exit env m sp
  | .wasmWrite sp => wasm_write env m sp
  | .nanotime1 sp => nanotime1 env m sp
  | .walltime sp => walltime env m sp
  | .walltime1 sp => walltime1 env m sp
  | .scheduleTimeoutEvent sp => schedule_timeout_event env m sp
  | .clearTimeoutEvent sp => clear_timeout_event env m sp
  | .getRandomData sp => get_random_data env m sp

/-- The three clock-query host calls. -/
def isClockCall : HostCall → Prop
  | .nanotime1 _ => True
  | .walltime _ => True
  | .walltime1 _ => True
  | _ => False

theorem tiCmp_eq_gt {a b : TimeoutInfo} : tiCmp a b = .gt ↔ tiLt a b := by
  unfold tiCmp tiLt
  rcases Nat.lt_trichotomy a.time b.time with h | h | h
  · rw [(Nat.compare_eq_gt).mpr h]
    simp [Ordering.then]
    omega
  · rw [(Nat.compare_eq_eq).mpr h.symm]
    simp only [Ordering.then]
    rw [Nat.compare_eq_gt]
    omega
  · rw [(Nat.compare_eq_lt).mpr h]
    simp only [Ordering.then]
    constructor
    · intro hc; cases hc
    · omega

theorem tiCmp_eq_lt {a b : TimeoutInfo} : tiCmp a b = .lt ↔ tiLt b a := by
  unfold tiCmp tiLt
  rcases Nat.lt_trichotomy a.time b.time with h | h | h
  · rw [(Nat.compare_eq_gt).mpr h]
    simp only [Ordering.then]
    constructor
    · intro hc; cases hc
    · omega
  · rw [(Nat.compare_eq_eq).mpr h.symm]
    simp only [Ordering.then]
    rw [Nat.compare_eq_lt]
    omega
  · rw [(Nat.compare_eq_lt).mpr h]
    simp [Ordering.then]
    omega

theorem tiCmp_eq_eq {a b : TimeoutInfo} :
    tiCmp a b = .eq ↔ (a.time = b.time ∧ a.id = b.id) := by
  unfold tiCmp
  rcases Nat.lt_trichotomy a.time b.time with h | h | h
  · rw [(Nat.compare_eq_gt).mpr h]
    simp only [Ordering.then]
    constructor
    · intro hc; cases hc
    · omega
  · rw [(Nat.compare_eq_eq).mpr h.symm]
    simp only [Ordering.then]
    rw [Nat.compare_eq_eq]
    omega
  · rw [(Nat.compare_eq_lt).mpr h]
    simp only [Ordering.then]
    constructor
    · intro hc; cases hc
    · omega

theorem tiLe_of_not_lt {a b : TimeoutInfo} (h : ¬ tiLt a b) : tiLe b a := by
  unfold tiLt at h
  unfold tiLe
  omega

theorem tiLe_of_lt {a b : TimeoutInfo} (h : tiLt a b) : tiLe a b := by
  unfold tiLt at h
  unfold tiLe
  omega

theorem tiLe_trans {a b c : TimeoutInfo} (h1 : tiLe a b) (h2 : tiLe b c) : tiLe a c := by
  unfold tiLe at h1 h2 ⊢
  omega

/-- One extraction from the timer heap: remove an entry that is maximal for
the source's inverted `Ord` — equivalently minimal in `(time, id)` — as
`BinaryHeap::pop` does. -/
def popMax : List TimeoutInfo → Option (TimeoutInfo × List TimeoutInfo)
  | [] => none
  | a :: l =>
    match popMax l with
    | none => some (a, [])
    | some (b, l') => if tiCmp a b = .lt then some (b, a :: l') else some (a, l)

/-- Drain the heap by repeated `popMax`, with explicit fuel. -/
def popAllFuel : Nat → List TimeoutInfo → List TimeoutInfo
  | 0, _ => []
  | n + 1, l =>
    match popMax l with
    | none => []
    | some (b, l') => b :: popAllFuel n l'

/-- The sequence in which the heap delivers all its entries. -/
def popAll (l : List TimeoutInfo) : List TimeoutInfo := popAllFuel l.length l

theorem popMax_eq_none {l : List TimeoutInfo} : popMax l = none ↔ l = [] := by
  cases l with
  | nil => simp [popMax]
  | cons a l =>
    constructor
    · intro h
      exfalso
      simp only [popMax] at h
      cases hp : popMax l with
      | none =>
        rw [hp] at h
        dsimp only at h
        cases h
      | some p =>
        obtain ⟨b, l'⟩ := p
        rw [hp] at h
        dsimp only at h
        split at h <;> cases h
    · intro h
      cases h

theorem popMax_perm {l : List TimeoutInfo} {b : TimeoutInfo} {l' : List TimeoutInfo}
    (h : popMax l = some (b, l')) : l.Perm (b :: l') := by
  induction l generalizing b l' with
  | nil => cases h
  | cons a l ih =>
    simp only [popMax] at h
    cases hp : popMax l with
    | none =>
      rw [hp] at h
      dsimp only at h
      have hl : l = [] := popMax_eq_none.mp hp
      subst hl
      simp only [Option.some.injEq, Prod.mk.injEq] at h
      obtain ⟨h1, h2⟩ := h
      subst h1
      subst h2
      exact List.Perm.refl _
    | some p =>
      obtain ⟨c, l''⟩ := p
      rw [hp] at h
      dsimp only at h
      split at h
      · simp only [Option.some.injEq, Prod.mk.injEq] at h
        obtain ⟨h1, h2⟩ := h
        subst h1
        subst h2
        exact ((ih hp).cons a).trans (List.Perm.swap c a l'')
      · simp only [Option.some.injEq, Prod.mk.injEq] at h
        obtain ⟨h1, h2⟩ := h
        subst h1
        subst h2
        exact List.Perm.refl _

theorem popMax_min {l : List TimeoutInfo} {b : TimeoutInfo} {l' : List TimeoutInfo}
    (h : popMax l = some (b, l')) : ∀ x ∈ l', tiLe b x := by
  induction l generalizing b l' with
  | nil => cases h
  | cons a l ih =>
    simp only [popMax] at h
    cases hp : popMax l with
    | none =>
      rw [hp] at h
      dsimp only at h
      simp only [Option.some.injEq, Prod.mk.injEq] at h
      obtain ⟨h1, h2⟩ := h
      subst h1
      subst h2
      intro x hx
      cases hx
    | some p =>
      obtain ⟨c, l''⟩ := p
      rw [hp] at h
      dsimp only at h
      split at h
      · rename_i hlt
        simp only [Option.some.injEq, Prod.mk.injEq] at h
        obtain ⟨h1, h2⟩ := h
        subst h1
        subst h2
        intro x hx
        rcases List.mem_cons.mp hx with rfl | hx
        · exact tiLe_of_lt (tiCmp_eq_lt.mp hlt)
        · exact ih hp x hx
      · rename_i hnlt
        simp only [Option.some.injEq, Prod.mk.injEq] at h
        obtain ⟨h1, h2⟩ := h
        subst h1
        subst h2
        intro x hx
        have hbc : tiLe a c := tiLe_of_not_lt (fun hcb => hnlt (tiCmp_eq_lt.mpr hcb))
        have hmem : x ∈ c :: l'' := ((popMax_perm hp).mem_iff).mp hx
        rcases List.mem_cons.mp hmem with rfl | hx'
        · exact hbc
        · exact tiLe_trans hbc (ih hp x hx')

theorem popMax_length {l : List TimeoutInfo} {b : TimeoutInfo} {l' : List TimeoutInfo}
    (h : popMax l = some (b, l')) : l'.length + 1 = l.length := by
  have := (popMax_perm h).length_eq
  simpa using this.symm

theorem popAllFuel_perm {n : Nat} {l : List TimeoutInfo} (h : l.length ≤ n) :
    (popAllFuel n l).Perm l := by
  induction n generalizing l with
  | zero =>
    have : l = [] := List.length_eq_zero.mp (by omega)
    subst this
    rfl
  | succ n ih =>
    simp only [popAllFuel]
    cases hp : popMax l with
    | none =>
      have : l = [] := popMax_eq_none.mp hp
      subst this
      rfl
    | some p =>
      obtain ⟨b, l'⟩ := p
      have hlen := popMax_length hp
      have hperm := popMax_perm hp
      exact ((ih (l := l') (by omega)).cons b).trans hperm.symm

theorem popAllFuel_sorted {n : Nat} {l : List TimeoutInfo} (h : l.length ≤ n) :
    List.Sorted tiLe (popAllFuel n l) := by
  induction n generalizing l with
  | zero => exact List.sorted_nil
  | succ n ih =>
    simp only [popAllFuel]
    cases hp : popMax l with
    | none => exact List.sorted_nil
    | some p =>
      obtain ⟨b, l'⟩ := p
      have hlen := popMax_length hp
      refine List.sorted_cons.mpr ⟨?_, ih (l := l') (by omega)⟩
      intro x hx
      have hx' : x ∈ l' := (popAllFuel_perm (l := l') (by omega)).mem_iff.mp hx
      exact popMax_min hp x hx'

theorem popAll_perm (l : List TimeoutInfo) : (popAll l).Perm l :=
  popAllFuel_perm (Nat.le_refl _)

theorem popAll_sorted (l : List TimeoutInfo) : List.Sorted tiLe (popAll l) :=
  popAllFuel_sorted (Nat.le_refl _)

theorem read_after_writeLE {m m' : Mem} {p v n : Nat}
    (h : writeBytes m p (leBytes n v) = some m') :
    (readBytes m' p n).map leVal = some (v % 256 ^ n) := by
  have hr := readBytes_writeBytes h
  rw [leBytes_length] at hr
  rw [hr, leBytes_map_mod]
  simp [leVal_leBytes]

theorem read_unchanged_of_disjoint {m m' : Mem} {p : Nat} {bs : List Nat} {q n : Nat}
    (h : writeBytes m p bs = some m')
    (hdisj : q + n ≤ p ∨ p + bs.length ≤ q) :
    readBytes m' q n = readBytes m q n := by
  apply readBytes_congr (writeBytes_size h)
  intro i hi1 hi2
  apply writeBytes_data_outside h
  omega

theorem write_read_u8_ptr {m m' : Mem} {p v : Nat} (hv : v < 256)
    (h : write_u8_ptr m p v = some m') : read_u8_ptr m' p = some v := by
  unfold write_u8_ptr at h
  unfold read_u8_ptr readByte
  have hsz : m'.size = m.size := writeByte_size h
  have hp : p < m.size := writeByte_isSome.mp (by rw [h]; rfl)
  rw [if_pos (by omega)]
  rw [writeByte_data h]
  simp [Nat.mod_eq_of_lt hv]

theorem write_read_u32_ptr {m m' : Mem} {p v : Nat} (hv : v < u32Mod)
    (h : write_u32_ptr m p v = some m') : read_u32_ptr m' p = some v := by
  unfold write_u32_ptr at h
  unfold read_u32_ptr
  rw [read_after_writeLE h]
  have : (256 : Nat) ^ 4 = u32Mod := by norm_num [u32Mod]
  rw [this, Nat.mod_eq_of_lt hv]

theorem write_read_u64_ptr {m m' : Mem} {p v : Nat} (hv : v < u64Mod)
    (h : write_u64_ptr m p v = some m') : read_u64_ptr m' p = some v := by
  unfold write_u64_ptr at h
  unfold read_u64_ptr
  rw [read_after_writeLE h]
  have : (256 : Nat) ^ 8 = u64Mod := by norm_num [u64Mod]
  rw [this, Nat.mod_eq_of_lt hv]

theorem read_u8_ptr_oob {m : Mem} {p : Nat} (h : m.size < p + 1) :
    read_u8_ptr m p = none := by
  unfold read_u8_ptr readByte
  rw [if_neg (by omega)]

theorem write_u8_ptr_oob {m : Mem} {p x : Nat} (h : m.size < p + 1) :
    write_u8_ptr m p x = none := by
  unfold write_u8_ptr writeByte
  rw [if_neg (by omega)]

theorem read_u32_ptr_oob {m : Mem} {p : Nat} (h : m.size < p + 4) :
    read_u32_ptr m p = none := by
  unfold read_u32_ptr
  rw [readBytes_none (by omega) (by omega)]
  rfl

theorem write_u32_ptr_oob {m : Mem} {p x : Nat} (h : m.size < p + 4) :
    write_u32_ptr m p x = none := by
  unfold write_u32_ptr
  apply writeBytes_none
  · intro hc
    have := leBytes_length 4 x
    rw [hc] at this
    cases this
  · rw [leBytes_length]
    omega

theorem read_u64_ptr_oob {m : Mem} {p : Nat} (h : m.size < p + 8) :
    read_u64_ptr m p = none := by
  unfold read_u64_ptr
  rw [readBytes_none (by omega) (by omega)]
  rfl

theorem write_u64_ptr_oob {m : Mem} {p x : Nat} (h : m.size < p + 8) :
    write_u64_ptr m p x = none := by
  unfold write_u64_ptr
  apply writeBytes_none
  · intro hc
    have := leBytes_length 8 x
    rw [hc] at this
    cases this
  · rw [leBytes_length]
    omega

theorem read_slice_oob {m : Mem} {ptr len : Nat}
    (h : u32Mod ≤ ptr ∨ m.size < ptr + len) : read_slice m ptr len = none := by
  unfold read_slice
  rw [if_neg]
  intro hc
  obtain ⟨h1, h2, h3⟩ := hc
  omega

theorem write_slice_oob {m : Mem} {ptr : Nat} {src : List Nat}
    (h : u32Mod ≤ ptr ∨ m.size < ptr + src.length) : write_slice m ptr src = none := by
  unfold write_slice
  rw [if_neg]
  intro hc
  obtain ⟨h1, h2⟩ := hc
  omega

/-- The first `n` successive generator outputs with the advanced generator. -/
def pcgWords : Pcg32 → Nat → List Nat × Pcg32
  | rng, 0 => ([], rng)
  | rng, n + 1 =>
    ((pcgNext rng).1 :: (pcgWords (pcgNext rng).2 n).1, (pcgWords (pcgNext rng).2 n).2)

/-- Specification of the byte sequence `get_random_data` writes for a request
of `len` bytes from generator state `rng`, with the generator state after the
call: `len / 4` whole outputs little-endian, then for a nonzero remainder the
low `len % 4` bytes of exactly one extra output. -/
def randBytes (rng : Pcg32) (len : Nat) : List Nat × Pcg32 :=
  let ws := pcgWords rng (len / 4)
  let full := (ws.1.map (leBytes 4)).flatten
  if len % 4 = 0 then (full, ws.2)
  else (full ++ leBytes (len % 4) (pcgNext ws.2).1, (pcgNext ws.2).2)

theorem writeByte_mod (m : Mem) (a b : Nat) : writeByte m a (b % 256) = writeByte m a b := by
  unfold writeByte
  split
  · congr 2
    funext i
    split
    · exact Nat.mod_mod_of_dvd b (dvd_refl 256)
    · rfl
  · rfl

theorem fillRem_eq {k : Nat} : ∀ {m : Mem} {ptr w : Nat}, ptr + k ≤ m.size →
    m.size ≤ u32Mod → fillRem m ptr k w = writeBytes m ptr (leBytes k w) := by
  induction k with
  | zero => intro m ptr w _ _; rfl
  | succ k ih =>
    intro m ptr w h1 h2
    show fillRem m ptr (k + 1) w = writeBytes m ptr (leBytes (k + 1) w)
    simp only [fillRem, leBytes, writeBytes, write_u8_ptr, writeByte_mod]
    cases hw : writeByte m ptr w with
    | none =>
      exfalso
      have : (writeByte m ptr w).isSome = true := writeByte_isSome.mpr (by omega)
      rw [hw] at this
      cases this
    | some m1 =>
      have hsz : m1.size = m.size := writeByte_size hw
      cases k with
      | zero => rfl
      | succ j =>
        have hlt : ptr + 1 < u32Mod := by omega
        rw [Nat.mod_eq_of_lt hlt]
        exact ih (by omega) (by omega)

theorem randBytes_zero (rng : Pcg32) : randBytes rng 0 = ([], rng) := by
  simp [randBytes, pcgWords]

theorem randBytes_small {rng : Pcg32} {len : Nat} (h1 : 0 < len) (h2 : len < 4) :
    randBytes rng len = (leBytes len (pcgNext rng).1, (pcgNext rng).2) := by
  have hd : len / 4 = 0 := Nat.div_eq_of_lt h2
  have hm : len % 4 = len := Nat.mod_eq_of_lt h2
  unfold randBytes
  rw [hd, hm]
  simp only [pcgWords]
  rw [if_neg (by omega)]
  simp

theorem randBytes_ge4 {rng : Pcg32} {len : Nat} (h : 4 ≤ len) :
    randBytes rng len =
      (leBytes 4 (pcgNext rng).1 ++ (randBytes (pcgNext rng).2 (len - 4)).1,
       (randBytes (pcgNext rng).2 (len - 4)).2) := by
  have hd : len / 4 = (len - 4) / 4 + 1 := Nat.div_eq_sub_div (by norm_num) h
  have hm : len % 4 = (len - 4) % 4 := Nat.mod_eq_sub_mod h
  unfold randBytes
  rw [hd, hm]
  simp only [pcgWords, List.map_cons, List.flatten_cons]
  by_cases h0 : (len - 4) % 4 = 0
  · rw [if_pos h0, if_pos h0]
  · rw [if_neg h0, if_neg h0]
    simp [List.append_assoc]

theorem pcgWords_length (rng : Pcg32) (n : Nat) : (pcgWords rng n).1.length = n := by
  induction n generalizing rng with
  | zero => rfl
  | succ n ih => simp [pcgWords, ih]

theorem flatten_leBytes_length (ws : List Nat) :
    ((ws.map (leBytes 4)).flatten).length = 4 * ws.length := by
  induction ws with
  | nil => rfl
  | cons w ws ih =>
    simp only [List.map_cons, List.flatten_cons, List.length_append, leBytes_length, ih,
      List.length_cons]
    omega

theorem randBytes_length (rng : Pcg32) (len : Nat) : (randBytes rng len).1.length = len := by
  unfold randBytes
  by_cases h0 : len % 4 = 0
  · rw [if_pos h0]
    simp only [flatten_leBytes_length, pcgWords_length]
    omega
  · rw [if_neg h0]
    simp only [List.length_append, flatten_leBytes_length, pcgWords_length, leBytes_length]
    omega

theorem randBytes_lt {rng : Pcg32} {len : Nat} : ∀ b ∈ (randBytes rng len).1, b < 256 := by
  intro b hb
  unfold randBytes at hb
  by_cases h0 : len % 4 = 0
  · rw [if_pos h0] at hb
    simp only [List.mem_flatten, List.mem_map] at hb
    obtain ⟨l, ⟨w, _, rfl⟩, hbl⟩ := hb
    exact leBytes_lt 4 w b hbl
  · rw [if_neg h0] at hb
    rcases List.mem_append.mp hb with hbf | hbt
    · simp only [List.mem_flatten, List.mem_map] at hbf
      obtain ⟨l, ⟨w, _, rfl⟩, hbl⟩ := hbf
      exact leBytes_lt 4 w b hbl
    · exact leBytes_lt _ _ b hbt

theorem fillRandom_eq {len : Nat} : ∀ {m : Mem} {ptr : Nat} {rng : Pcg32},
    ptr + len ≤ m.size → m.size ≤ u32Mod →
    fillRandom m ptr len rng =
      (writeBytes m ptr (randBytes rng len).1).map (fun m' => (m', (randBytes rng len).2)) := by
  induction len using Nat.strong_induction_on with
  | _ len ih =>
    intro m ptr rng h1 h2
    by_cases h4 : 4 ≤ len
    · rw [fillRandom.eq_def]
      rw [dif_pos h4]
      have hws : (write_u32_ptr m ptr (pcgNext rng).1).isSome = true := by
        unfold write_u32_ptr
        apply writeBytes_some_of_le
        rw [leBytes_length]
        omega
      cases hw : write_u32_ptr m ptr (pcgNext rng).1 with
      | none => rw [hw] at hws; cases hws
      | some m1 =>
        have hw' : writeBytes m ptr (leBytes 4 (pcgNext rng).1) = some m1 := hw
        have hsz1 : m1.size = m.size := writeBytes_size hw'
        rw [randBytes_ge4 h4]
        rw [writeBytes_append, hw', Option.some_bind, leBytes_length]
        by_cases hp4 : ptr + 4 < u32Mod
        · rw [Nat.mod_eq_of_lt hp4]
          exact ih (len - 4) (by omega) (by omega) (by omega)
        · have hlen4 : len = 4 := by omega
          have hptr : ptr + 4 = u32Mod := by omega
          subst hlen4
          rw [hptr, Nat.mod_self]
          dsimp only
          have h44 : (4 : Nat) - 4 = 0 := rfl
          rw [h44, fillRandom.eq_def]
          norm_num [randBytes_zero, writeBytes]
    · by_cases h0 : 0 < len
      · rw [fillRandom.eq_def]
        rw [dif_neg h4, if_pos h0]
        rw [fillRem_eq (by omega) h2]
        rw [randBytes_small h0 (by omega)]
      · have hlen : len = 0 := by omega
        subst hlen
        rw [fillRandom.eq_def]
        simp [randBytes_zero, writeBytes]

theorem fillRandom_spec {m : Mem} {ptr len : Nat} {rng : Pcg32}
    (h1 : ptr + len ≤ m.size) (h2 : m.size ≤ u32Mod) :
    ∃ m', fillRandom m ptr len rng = some (m', (randBytes rng len).2) ∧
      m'.size = m.size ∧
      readBytes m' ptr len = some (randBytes rng len).1 ∧
      (∀ i, i < ptr ∨ ptr + len ≤ i → m'.data i = m.data i) := by
  have heq := @fillRandom_eq len m ptr rng h1 h2
  have hsome : (writeBytes m ptr (randBytes rng len).1).isSome = true := by
    apply writeBytes_some_of_le
    rw [randBytes_length]
    omega
  cases hw : writeBytes m ptr (randBytes rng len).1 with
  | none => rw [hw] at hsome; cases hsome
  | some m' =>
    refine ⟨m', ?_, writeBytes_size hw, ?_, ?_⟩
    · rw [heq, hw]; rfl
    · have hr := readBytes_writeBytes hw
      rw [randBytes_length] at hr
      rw [hr]
      congr 1
      have : (randBytes rng len).1.map (· % 256) = (randBytes rng len).1.map id := by
        apply List.map_congr_left
        intro b hb
        exact Nat.mod_eq_of_lt (randBytes_lt b hb)
      rw [this, List.map_id]
    · intro i hi
      apply writeBytes_data_outside hw
      rw [randBytes_length]
      exact hi

/-- Abstract timer operations: one `schedule_timeout_event` (with the fire
time it computes) or one `clear_timeout_event` (with the id it reads). -/
inductive TOp
  | sched (fire : Nat)
  | cancel (id : Nat)

/-- Effect of a timer operation on the timer state, exactly as the handlers
perform it. -/
def applyTOp (ts : TimeoutState) : TOp → TimeoutState
  | .sched fire => (tsSched fire ts).1
  | .cancel id => { ts with pending_ids := ts.pending_ids.erase id }

/-- Run a sequence of timer operations. -/
def runT (ts : TimeoutState) : List TOp → TimeoutState
  | [] => ts
  | op :: ops => runT (applyTOp ts op) ops

/-- The ids returned by the schedule calls of a sequence, in call order. -/
def schedIds (ts : TimeoutState) : List TOp → List Nat
  | [] => []
  | .sched fire :: ops => (tsSched fire ts).2 :: schedIds (tsSched fire ts).1 ops
  | .cancel id :: ops => schedIds (applyTOp ts (.cancel id)) ops

/-- Number of schedule calls in a sequence. -/
def countSched : List TOp → Nat
  | [] => 0
  | .sched _ :: ops => countSched ops + 1
  | .cancel _ :: ops => countSched ops

/-- The timer state of a fresh session (`TimeoutState::default`). -/
def initTS : TimeoutState := ⟨[], [], 0⟩

theorem runT_append (pre suf : List TOp) (ts : TimeoutState) :
    runT ts (pre ++ suf) = runT (runT ts pre) suf := by
  induction pre generalizing ts with
  | nil => rfl
  | cons op ops ih => simp [runT, ih]

theorem countSched_append (pre suf : List TOp) :
    countSched (pre ++ suf) = countSched pre + countSched suf := by
  induction pre with
  | nil => simp [countSched]
  | cons op ops ih =>
    cases op with
    | sched fire => simp [countSched, ih]; omega
    | cancel id => simp [countSched, ih]

theorem countSched_replicate (n : Nat) (fire : Nat) :
    countSched (List.replicate n (.sched fire)) = n := by
  induction n with
  | zero => rfl
  | succ n ih => simp [List.replicate, countSched, ih]

theorem runT_next_id {ops : List TOp} : ∀ {ts : TimeoutState}, ts.next_id < u32Mod →
    (runT ts ops).next_id = (ts.next_id + countSched ops) % u32Mod := by
  induction ops with
  | nil =>
    intro ts h
    simp [runT, countSched, Nat.mod_eq_of_lt h]
  | cons op ops ih =>
    intro ts h
    cases op with
    | sched fire =>
      show (runT (tsSched fire ts).1 ops).next_id = _
      have hn : ((ts.next_id + 1) % u32Mod) < u32Mod := Nat.mod_lt _ (by norm_num [u32Mod])
      have := @ih (tsSched fire ts).1 hn
      rw [this]
      show ((ts.next_id + 1) % u32Mod + countSched ops) % u32Mod = _
      rw [Nat.mod_add_mod]
      show _ = (ts.next_id + (countSched ops + 1)) % u32Mod
      congr 1
      omega
    | cancel id =>
      show (runT { ts with pending_ids := ts.pending_ids.erase id } ops).next_id = _
      exact ih h

theorem runT_invariant {ops : List TOp} : ∀ {ts : TimeoutState},
    ts.next_id + countSched ops < u32Mod →
    (∀ id ∈ ts.pending_ids, id < ts.next_id) →
    (∀ ti ∈ ts.times, ti.id < ts.next_id) →
    (runT ts ops).next_id = ts.next_id + countSched ops ∧
    (∀ id ∈ (runT ts ops).pending_ids, id < (runT ts ops).next_id) ∧
    (∀ ti ∈ (runT ts ops).times, ti.id < (runT ts ops).next_id) := by
  induction ops with
  | nil =>
    intro ts _ hp ht
    exact ⟨by simp [runT, countSched], hp, ht⟩
  | cons op ops ih =>
    intro ts hcount hp ht
    cases op with
    | sched fire =>
      have hwrap : (ts.next_id + 1) % u32Mod = ts.next_id + 1 := by
        apply Nat.mod_eq_of_lt
        simp only [countSched] at hcount
        omega
      have hstep : (tsSched fire ts).1.next_id = ts.next_id + 1 := hwrap
      have hcount' : (tsSched fire ts).1.next_id + countSched ops < u32Mod := by
        rw [hstep]
        simp only [countSched] at hcount
        omega
      have hp' : ∀ id ∈ (tsSched fire ts).1.pending_ids, id < (tsSched fire ts).1.next_id := by
        intro id hid
        rw [hstep]
        show id < ts.next_id + 1
        have : id ∈ insertId ts.next_id ts.pending_ids := hid
        unfold insertId at this
        split at this
        · have := hp id this
          omega
        · rcases List.mem_cons.mp this with rfl | hmem
          · omega
          · have := hp id hmem
            omega
      have ht' : ∀ ti ∈ (tsSched fire ts).1.times, ti.id < (tsSched fire ts).1.next_id := by
        intro ti hti
        rw [hstep]
        rcases List.mem_cons.mp hti with rfl | hmem
        · show ts.next_id < ts.next_id + 1
          omega
        · have := ht ti hmem
          omega
      obtain ⟨hnid, hpf, htf⟩ := ih hcount' hp' ht'
      simp only [runT, applyTOp]
      refine ⟨?_, hpf, htf⟩
      rw [hnid, hstep]
      simp only [countSched]
      omega
    | cancel id =>
      have hp' : ∀ i ∈ (applyTOp ts (.cancel id)).pending_ids, i < ts.next_id := by
        intro i hi
        exact hp i (List.mem_of_mem_erase hi)
      exact ih (by simpa [countSched] using hcount) hp' ht

theorem schedIds_eq {ops : List TOp} : ∀ {ts : TimeoutState},
    ts.next_id + countSched ops < u32Mod →
    schedIds ts ops = (List.range (countSched ops)).map (ts.next_id + ·) := by
  induction ops with
  | nil => intro ts _; rfl
  | cons op ops ih =>
    intro ts hcount
    cases op with
    | sched fire =>
      have hwrap : (ts.next_id + 1) % u32Mod = ts.next_id + 1 := by
        apply Nat.mod_eq_of_lt
        simp only [countSched] at hcount
        omega
      show (tsSched fire ts).2 :: schedIds (tsSched fire ts).1 ops = _
      have hstep : (tsSched fire ts).1.next_id = ts.next_id + 1 := hwrap
      have hih := @ih (tsSched fire ts).1 (by rw [hstep]; simp only [countSched] at hcount; omega)
      rw [hih, hstep]
      show ts.next_id :: _ = _
      simp only [countSched, List.range_succ_eq_map, List.map_cons, List.map_map]
      congr 1
      apply List.map_congr_left
      intro i _
      simp [Function.comp]
      omega
    | cancel id =>
      show schedIds (applyTOp ts (.cancel id)) ops = _
      exact ih (by simpa [countSched] using hcount)

theorem wasm_exit_inv {env : WasmEnv} {m : Mem} {sp : Nat} {r : CallResult}
    (h : wasm_exit env m sp = some r) :
    ∃ code, read_u32 m sp 0 = some code ∧ r = (env, m, .exited code, []) := by
  unfold wasm_exit at h
  simp only [Option.pure_def, Option.bind_eq_bind, Option.bind_eq_some, Option.some.injEq] at h
  obtain ⟨code, hc, hr⟩ := h
  exact ⟨code, hc, hr.symm⟩

theorem wasm_write_inv {env : WasmEnv} {m : Mem} {sp : Nat} {r : CallResult}
    (h : wasm_write env m sp = some r) :
    ∃ fd ptr len buf, read_u64 m sp 0 = some fd ∧ read_u64 m sp 1 = some ptr ∧
      read_u32 m sp 2 = some len ∧ read_slice m ptr len = some buf ∧
      r = (env, m, .normal, [.writeOut fd buf]) := by
  unfold wasm_write at h
  simp only [Option.pure_def, Option.bind_eq_bind, Option.bind_eq_some, Option.some.injEq] at h
  obtain ⟨fd, h1, ptr, h2, len, h3, buf, h4, hr⟩ := h
  exact ⟨fd, ptr, len, buf, h1, h2, h3, h4, hr.symm⟩

theorem nanotime1_inv {env : WasmEnv} {m : Mem} {sp : Nat} {r : CallResult}
    (h : nanotime1 env m sp = some r) :
    ∃ m', write_u64 m sp 0 ((env.time + env.time_interval) % u64Mod) = some m' ∧
      r = ({ env with time := (env.time + env.time_interval) % u64Mod }, m', .normal, []) := by
  unfold nanotime1 at h
  simp only [Option.pure_def, Option.bind_eq_bind, Option.bind_eq_some, Option.some.injEq] at h
  obtain ⟨m', h1, hr⟩ := h
  exact ⟨m', h1, hr.symm⟩

theorem walltime_inv {env : WasmEnv} {m : Mem} {sp : Nat} {r : CallResult}
    (h : walltime env m sp = some r) :
    ∃ m1 m2, write_u64 m sp 0 ((env.time + env.time_interval) % u64Mod / 1000000000) = some m1 ∧
      write_u32 m1 sp 1 ((env.time + env.time_interval) % u64Mod % 1000000000 % u32Mod) = some m2 ∧
      r = ({ env with time := (env.time + env.time_interval) % u64Mod }, m2, .normal, []) := by
  unfold walltime at h
  simp only [Option.pure_def, Option.bind_eq_bind, Option.bind_eq_some, Option.some.injEq] at h
  obtain ⟨m1, h1, m2, h2, hr⟩ := h
  exact ⟨m1, m2, h1, h2, hr.symm⟩

theorem walltime1_inv {env : WasmEnv} {m : Mem} {sp : Nat} {r : CallResult}
    (h : walltime1 env m sp = some r) :
    ∃ m1 m2, write_u64 m sp 0 ((env.time + env.time_interval) % u64Mod / 1000000000) = some m1 ∧
      write_u64 m1 sp 1 ((env.time + env.time_interval) % u64Mod % 1000000000) = some m2 ∧
      r = ({ env with time := (env.time + env.time_interval) % u64Mod }, m2, .normal, []) := by
  unfold walltime1 at h
  simp only [Option.pure_def, Option.bind_eq_bind, Option.bind_eq_some, Option.some.injEq] at h
  obtain ⟨m1, h1, m2, h2, hr⟩ := h
  exact ⟨m1, m2, h1, h2, hr.symm⟩

theorem schedule_timeout_event_inv {env : WasmEnv} {m : Mem} {sp : Nat} {r : CallResult}
    (h : schedule_timeout_event env m sp = some r) :
    ∃ d m', read_u64 m sp 0 = some d ∧
      write_u32 m sp 1 env.timeouts.next_id = some m' ∧
      r = ({ env with timeouts :=
        (tsSched (satAdd64 (satMul64 d 1000000) env.time) env.timeouts).1 }, m', .normal, []) := by
  unfold schedule_timeout_event at h
  simp only [Option.pure_def, Option.bind_eq_bind, Option.bind_eq_some, Option.some.injEq] at h
  obtain ⟨d, h1, m', h2, hr⟩ := h
  exact ⟨d, m', h1, h2, hr.symm⟩

theorem clear_timeout_event_inv {env : WasmEnv} {m : Mem} {sp : Nat} {r : CallResult}
    (h : clear_timeout_event env m sp = some r) :
    ∃ id, read_u32 m sp 0 = some id ∧
      ((id ∈ env.timeouts.pending_ids ∧
        r = ({ env with timeouts :=
          { env.timeouts with pending_ids := env.timeouts.pending_ids.erase id } },
          m, .normal, [])) ∨
       (id ∉ env.timeouts.pending_ids ∧ r = (env, m, .normal, [.warnClear id]))) := by
  unfold clear_timeout_event at h
  simp only [Option.pure_def, Option.bind_eq_bind, Option.bind_eq_some] at h
  obtain ⟨id, h1, hr⟩ := h
  refine ⟨id, h1, ?_⟩
  by_cases hmem : id ∈ env.timeouts.pending_ids
  · rw [if_pos hmem] at hr
    simp only [Option.some.injEq] at hr
    exact Or.inl ⟨hmem, hr.symm⟩
  · rw [if_neg hmem] at hr
    simp only [Option.some.injEq] at hr
    exact Or.inr ⟨hmem, hr.symm⟩

theorem get_random_data_inv {env : WasmEnv} {m : Mem} {sp : Nat} {r : CallResult}
    (h : get_random_data env m sp = some r) :
    ∃ p len m' rng', read_u64 m sp 0 = some p ∧ p < u32Mod ∧
      read_u64 m sp 1 = some len ∧ fillRandom m p len env.rng = some (m', rng') ∧
      r = ({ env with rng := rng' }, m', .normal, []) := by
  unfold get_random_data at h
  simp only [Option.pure_def, Option.bind_eq_bind, Option.bind_eq_some] at h
  obtain ⟨p, h1, hr⟩ := h
  by_cases hp : p < u32Mod
  · rw [if_pos hp] at hr
    simp only [Option.pure_def, Option.bind_eq_bind, Option.bind_eq_some, Option.some.injEq] at hr
    obtain ⟨len, h2, q, h3, hr⟩ := hr
    obtain ⟨m', rng'⟩ := q
    exact ⟨p, len, m', rng', h1, hp, h2, h3, hr.symm⟩
  · rw [if_neg hp] at hr
    cases hr

/-- Run a sequence of host calls, requiring every call to complete (a fatal
call aborts the whole sequence). -/
def runSeq (env : WasmEnv) (m : Mem) : List HostCall → Option (WasmEnv × Mem)
  | [] => some (env, m)
  | c :: cs =>
    match step c env m with
    | some (env', m', _, _) => runSeq env' m' cs
    | none => none

theorem step_clock_time {c : HostCall} {env : WasmEnv} {m : Mem} {r : CallResult}
    (hc : isClockCall c) (h : step c env m = some r) :
    r.1.time = (env.time + env.time_interval) % u64Mod ∧
    r.1.time_interval = env.time_interval := by
  cases c with
  | nanotime1 sp =>
    obtain ⟨m', _, hr⟩ := nanotime1_inv h
    subst hr
    exact ⟨rfl, rfl⟩
  | walltime sp =>
    obtain ⟨m1, m2, _, _, hr⟩ := walltime_inv h
    subst hr
    exact ⟨rfl, rfl⟩
  | walltime1 sp =>
    obtain ⟨m1, m2, _, _, hr⟩ := walltime1_inv h
    subst hr
    exact ⟨rfl, rfl⟩
  | goDebug x => cases hc
  | resetMemoryDataView x => cases hc
  | wasmExit sp => cases hc
  | wasmWrite sp => cases hc
  | scheduleTimeoutEvent sp => cases hc
  | clearTimeoutEvent sp => cases hc
  | getRandomData sp => cases hc

theorem step_nonclock_time {c : HostCall} {env : WasmEnv} {m : Mem} {r : CallResult}
    (hc : ¬ isClockCall c) (h : step c env m = some r) : r.1.time = env.time := by
  cases c with
  | nanotime1 sp => exact absurd trivial hc
  | walltime sp => exact absurd trivial hc
  | walltime1 sp => exact absurd trivial hc
  | goDebug x =>
    simp only [step, go_debug, Option.some.injEq] at h
    subst h
    rfl
  | resetMemoryDataView x =>
    simp only [step, reset_memory_data_view, Option.some.injEq] at h
    subst h
    rfl
  | wasmExit sp =>
    obtain ⟨code, _, hr⟩ := wasm_exit_inv h
    subst hr
    rfl
  | wasmWrite sp =>
    obtain ⟨fd, ptr, len, buf, _, _, _, _, hr⟩ := wasm_write_inv h
    subst hr
    rfl
  | scheduleTimeoutEvent sp =>
    obtain ⟨d, m', _, _, hr⟩ := schedule_timeout_event_inv h
    subst hr
    rfl
  | clearTimeoutEvent sp =>
    obtain ⟨id, _, hr | hr⟩ := clear_timeout_event_inv h
    · rw [hr.2]
    · rw [hr.2]
  | getRandomData sp =>
    obtain ⟨p, len, m', rng', _, _, _, _, hr⟩ := get_random_data_inv h
    subst hr
    rfl

theorem mem_insertId_self (id : Nat) (s : List Nat) : id ∈ insertId id s := by
  unfold insertId
  split
  · assumption
  · exact List.mem_cons_self id s

theorem readByte_unchanged {m m' : Mem} {p : Nat} {bs : List Nat} {q : Nat}
    (h : writeBytes m p bs = some m') (hq : q + 1 ≤ p ∨ p + bs.length ≤ q) :
    readByte m' q = readByte m q := by
  unfold readByte
  rw [writeBytes_size h, writeBytes_data_outside h q (by omega)]

/-- C2: the inverted comparison of `TimeoutInfo` (`other` against `self` on
both fields) makes the max-priority `BinaryHeap` deliver entries in ascending
fire time, with equal fire times in ascending id order: `tiCmp a b = .gt`
exactly when `(a.time, a.id)` is lexicographically smaller, and draining the
heap by repeated max-extraction yields a permutation of the stored entries
sorted ascending by `(time, id)`. -/
theorem C2_timer_pop_order :
    (∀ a b : TimeoutInfo, tiCmp a b = .gt ↔ tiLt a b) ∧
    (∀ a b : TimeoutInfo, tiCmp a b = .lt ↔ tiLt b a) ∧
    (∀ a b : TimeoutInfo, tiCmp a b = .eq ↔ a.time = b.time ∧ a.id = b.id) ∧
    (∀ l : List TimeoutInfo, (popAll l).Perm l ∧ List.Sorted tiLe (popAll l)) :=
  ⟨fun _ _ => tiCmp_eq_gt, fun _ _ => tiCmp_eq_lt, fun _ _ => tiCmp_eq_eq,
    fun l => ⟨popAll_perm l, popAll_sorted l⟩⟩

/-- C7: every out-of-range access is fatal (`none`), never a value: the typed
pointer reads/writes of all three widths abort when the accessed range leaves
the memory, `read_slice`/`write_slice` abort when the pointer does not fit a
32-bit address space or the range exceeds the memory size, and a host call
built from these accesses (here `wasm_exit`) aborts rather than continuing
when its slot read is out of bounds. -/
theorem C7_oob_fatal {m : Mem} {p ptr len x : Nat} {src : List Nat} :
    (m.size < p + 1 → read_u8_ptr m p = none ∧ write_u8_ptr m p x = none) ∧
    (m.size < p + 4 → read_u32_ptr m p = none ∧ write_u32_ptr m p x = none) ∧
    (m.size < p + 8 → read_u64_ptr m p = none ∧ write_u64_ptr m p x = none) ∧
    (u32Mod ≤ ptr ∨ m.size < ptr + len → read_slice m ptr len = none) ∧
    (u32Mod ≤ ptr ∨ m.size < ptr + src.length → write_slice m ptr src = none) ∧
    (∀ env sp, m.size < goOffset sp 0 + 4 → wasm_exit env m sp = none) := by
  refine ⟨fun h => ⟨read_u8_ptr_oob h, write_u8_ptr_oob h⟩,
    fun h => ⟨read_u32_ptr_oob h, write_u32_ptr_oob h⟩,
    fun h => ⟨read_u64_ptr_oob h, write_u64_ptr_oob h⟩,
    fun h => read_slice_oob h,
    fun h => write_slice_oob h,
    fun env sp h => ?_⟩
  unfold wasm_exit read_u32 read_u32_ptr
  rw [readBytes_none (by omega) (by omega)]
  rfl

/-- C7 witness: on a 4-byte memory, every accessor rejects address 10, a
64-bit access at 0 is already out of range, `read_slice` rejects a pointer
beyond the 32-bit space, `write_slice` rejects a range past the end, and
`wasm_exit` is fatal when its frame slot is unreadable. -/
theorem C7_witness :
    read_u8_ptr ⟨4, fun _ => 0⟩ 10 = none ∧
    write_u8_ptr ⟨4, fun _ => 0⟩ 10 7 = none ∧
    read_u32_ptr ⟨4, fun _ => 0⟩ 1 = none ∧
    write_u32_ptr ⟨4, fun _ => 0⟩ 1 7 = none ∧
    read_u64_ptr ⟨4, fun _ => 0⟩ 0 = none ∧
    write_u64_ptr ⟨4, fun _ => 0⟩ 0 7 = none ∧
    read_slice ⟨4, fun _ => 0⟩ 4294967296 0 = none ∧
    write_slice ⟨4, fun _ => 0⟩ 2 [1, 2, 3] = none ∧
    wasm_exit defaultEnv ⟨4, fun _ => 0⟩ 0 = none := by
  have h8 := @C7_oob_fatal ⟨4, fun _ => 0⟩ 10 0 0 7 []
  have h32 := @C7_oob_fatal ⟨4, fun _ => 0⟩ 1 0 0 7 []
  have h64 := @C7_oob_fatal ⟨4, fun _ => 0⟩ 0 0 0 7 []
  have hrs := @C7_oob_fatal ⟨4, fun _ => 0⟩ 0 4294967296 0 0 []
  have hws := @C7_oob_fatal ⟨4, fun _ => 0⟩ 0 2 0 0 [1, 2, 3]
  have hex := @C7_oob_fatal ⟨4, fun _ => 0⟩ 0 0 0 0 []
  exact ⟨(h8.1 (by decide)).1, (h8.1 (by decide)).2,
    (h32.2.1 (by decide)).1, (h32.2.1 (by decide)).2,
    (h64.2.2.1 (by decide)).1, (h64.2.2.1 (by decide)).2,
    hrs.2.2.2.1 (by decide),
    hws.2.2.2.2.1 (by decide),
    hex.2.2.2.2.2 defaultEnv 0 (by decide)⟩

/-- C9 counterexample: `GoStack::offset` is computed in u32 arithmetic, so
for slot index 2^29 at frame base 0 the address wraps to 8 — the same address
as slot 0 — rather than the claimed `frame_base + (n + 1) * 8`: for
unrestricted slot indices the address equation fails and distinct slots can
alias. -/
theorem C9_counterexample :
    goOffset 0 536870912 = goOffset 0 0 ∧
    (536870912 : Nat) ≠ 0 ∧
    goOffset 0 536870912 ≠ 0 + (536870912 + 1) * 8 := by
  refine ⟨?_, ?_, ?_⟩ <;> decide

/-- C9: with the slot address `frame_base + (slot + 1) * 8` inside the 32-bit
address space, `GoStack::offset` computes exactly that address; for each of
the three widths a slot write followed by a slot read of the same frame
returns every representable value unchanged; and a 64-bit write to one slot
leaves the reads of every other (non-wrapping) slot untouched, so distinct
slots never alias. -/
theorem C9_slot_roundtrip {m : Mem} {start n : Nat}
    (haddr : start + (n + 1) * 8 + 8 ≤ u32Mod) :
    goOffset start n = start + (n + 1) * 8 ∧
    (∀ v m', v < 256 → write_u8 m start n v = some m' → read_u8 m' start n = some v) ∧
    (∀ v m', v < u32Mod → write_u32 m start n v = some m' → read_u32 m' start n = some v) ∧
    (∀ v m', v < u64Mod → write_u64 m start n v = some m' → read_u64 m' start n = some v) ∧
    (∀ k v m', k ≠ n → start + (k + 1) * 8 + 8 ≤ u32Mod →
      write_u64 m start n v = some m' →
      read_u8 m' start k = read_u8 m start k ∧
      read_u32 m' start k = read_u32 m start k ∧
      read_u64 m' start k = read_u64 m start k) := by
  have hoff : goOffset start n = start + (n + 1) * 8 := by
    unfold goOffset
    exact Nat.mod_eq_of_lt (by omega)
  refine ⟨hoff, ?_, ?_, ?_, ?_⟩
  · intro v m' hv h
    exact write_read_u8_ptr hv h
  · intro v m' hv h
    exact write_read_u32_ptr hv h
  · intro v m' hv h
    exact write_read_u64_ptr hv h
  · intro k v m' hk haddr' h
    have hoffk : goOffset start k = start + (k + 1) * 8 := by
      unfold goOffset
      exact Nat.mod_eq_of_lt (by omega)
    have h' : writeBytes m (goOffset start n) (leBytes 8 v) = some m' := h
    have hdisj : ∀ w : Nat, w ≤ 8 →
        goOffset start k + w ≤ goOffset start n ∨
        goOffset start n + (leBytes 8 v).length ≤ goOffset start k := by
      intro w hw
      rw [hoff, hoffk, leBytes_length]
      rcases Nat.lt_or_ge k n with hlt | hge
      · left
        have : (k + 1) * 8 + 8 ≤ (n + 1) * 8 := by
          have : k + 1 + 1 ≤ n + 1 := by omega
          calc (k + 1) * 8 + 8 = (k + 1 + 1) * 8 := by ring
            _ ≤ (n + 1) * 8 := Nat.mul_le_mul_right 8 this
        omega
      · right
        have hgt : n < k := by omega
        have : (n + 1) * 8 + 8 ≤ (k + 1) * 8 := by
          have : n + 1 + 1 ≤ k + 1 := by omega
          calc (n + 1) * 8 + 8 = (n + 1 + 1) * 8 := by ring
            _ ≤ (k + 1) * 8 := Nat.mul_le_mul_right 8 this
        omega
    refine ⟨?_, ?_, ?_⟩
    · exact readByte_unchanged h' (by have := hdisj 1 (by omega); rw [leBytes_length] at this ⊢; omega)
    · unfold read_u32 read_u32_ptr
      rw [read_unchanged_of_disjoint h' (hdisj 4 (by omega))]
    · unfold read_u64 read_u64_ptr
      rw [read_unchanged_of_disjoint h' (hdisj 8 (by omega))]

/-- C1 counterexample: `next_id` is a wrapping u32 (`next_id += 1`), so at
the state whose allocator holds 2^32 - 1 a schedule call sets it to 0, not to
2^32: the unqualified "next_id is incremented by one" fails at that state. -/
theorem C1_counterexample :
    ∃ r, schedule_timeout_event { defaultEnv with timeouts := ⟨[], [], u32Mod - 1⟩ }
      ⟨32, fun i => if i = 8 then 5 else 0⟩ 0 = some r ∧
      r.1.timeouts.next_id = 0 ∧
      r.1.timeouts.next_id ≠ u32Mod - 1 + 1 := by
  refine ⟨_, rfl, ?_, ?_⟩ <;> decide

/-- C1: a completed `schedule_timeout_event` call that read delay `d` (ms)
from slot 0 while the clock held `env.time` computes the fire time
`saturating_add (saturating_mul d 1000000) env.time`, writes the pre-call
`next_id` to slot 1 as a u32, increments `next_id` by one (the u32 allocator
not being at its wrap point), pushes `(fire_time, id)` onto the ordered
structure, adds the id to the live set, and leaves clock and RNG untouched. -/
theorem C1_schedule_timeout_event {env : WasmEnv} {m : Mem} {sp : Nat} {r : CallResult}
    {d : Nat}
    (h : schedule_timeout_event env m sp = some r)
    (hd : read_u64 m sp 0 = some d)
    (hid : env.timeouts.next_id + 1 < u32Mod) :
    r.1.timeouts.next_id = env.timeouts.next_id + 1 ∧
    read_u32 r.2.1 sp 1 = some env.timeouts.next_id ∧
    r.1.timeouts.times =
      ⟨satAdd64 (satMul64 d 1000000) env.time, env.timeouts.next_id⟩ :: env.timeouts.times ∧
    r.1.timeouts.pending_ids = insertId env.timeouts.next_id env.timeouts.pending_ids ∧
    env.timeouts.next_id ∈ r.1.timeouts.pending_ids ∧
    r.1.time = env.time ∧ r.1.rng = env.rng ∧ r.2.2.1 = .normal := by
  obtain ⟨d', m', hd', hw, hr⟩ := schedule_timeout_event_inv h
  rw [hd] at hd'
  injection hd' with he
  subst he
  subst hr
  refine ⟨Nat.mod_eq_of_lt hid, ?_, rfl, rfl, mem_insertId_self _ _, rfl, rfl, rfl⟩
  exact write_read_u32_ptr (by omega) hw

/-- C1 witness: from the default environment (virtual time 0, `next_id` 0)
with delay 5 in slot 0, the first schedule returns id 0 with fire time
5000000 ns, and a second schedule at the same virtual time returns id 1 with
the same fire time, ordered after id 0. -/
theorem C1_witness :
    (∃ r1, schedule_timeout_event defaultEnv ⟨32, fun i => if i = 8 then 5 else 0⟩ 0 = some r1 ∧
      r1.1.timeouts.next_id = 1 ∧
      read_u32 r1.2.1 0 1 = some 0 ∧
      r1.1.timeouts.times = [⟨5000000, 0⟩] ∧
      r1.1.timeouts.pending_ids = [0] ∧ r1.1.time = 0) ∧
    (∃ r2, schedule_timeout_event
        { time := 0, time_interval := 10000000, timeouts := ⟨[⟨5000000, 0⟩], [0], 1⟩,
          rng := pcgNew 0xcafef00dd15ea5e5 0xa02bdbf7bb3c0a7 }
        ⟨32, fun i => if i = 8 then 5 else 0⟩ 0 = some r2 ∧
      r2.1.timeouts.next_id = 2 ∧
      read_u32 r2.2.1 0 1 = some 1 ∧
      r2.1.timeouts.times = [⟨5000000, 1⟩, ⟨5000000, 0⟩]) := by
  constructor
  · obtain ⟨r1, h1⟩ : ∃ x, schedule_timeout_event defaultEnv
        ⟨32, fun i => if i = 8 then 5 else 0⟩ 0 = some x := ⟨_, rfl⟩
    have c := C1_schedule_timeout_event h1
      (show read_u64 ⟨32, fun i => if i = 8 then 5 else 0⟩ 0 0 = some 5 by decide)
      (by decide)
    exact ⟨r1, h1, c.1, c.2.1, c.2.2.1, c.2.2.2.1, c.2.2.2.2.2.1⟩
  · obtain ⟨r2, h2⟩ : ∃ x, schedule_timeout_event
        { time := 0, time_interval := 10000000, timeouts := ⟨[⟨5000000, 0⟩], [0], 1⟩,
          rng := pcgNew 0xcafef00dd15ea5e5 0xa02bdbf7bb3c0a7 }
        ⟨32, fun i => if i = 8 then 5 else 0⟩ 0 = some x := ⟨_, rfl⟩
    have c := C1_schedule_timeout_event h2
      (show read_u64 ⟨32, fun i => if i = 8 then 5 else 0⟩ 0 0 = some 5 by decide)
      (by decide)
    exact ⟨r2, h2, c.1, c.2.1, c.2.2.1⟩

/-- C6: a completed `clear_timeout_event` call that read `id` from slot 0 is
always a normal completion; it touches nothing but the live-id set: if the id
is live it is removed (the heap entry staying behind — lazy deletion) with no
warning, and if it is not live only a warning is emitted and the whole timer
state, clock, and RNG are unchanged. -/
theorem C6_clear_timeout_event {env : WasmEnv} {m : Mem} {sp : Nat} {r : CallResult}
    {id : Nat}
    (h : clear_timeout_event env m sp = some r)
    (hid : read_u32 m sp 0 = some id) :
    r.2.2.1 = .normal ∧ r.2.1 = m ∧
    r.1.time = env.time ∧ r.1.time_interval = env.time_interval ∧ r.1.rng = env.rng ∧
    r.1.timeouts.times = env.timeouts.times ∧
    r.1.timeouts.next_id = env.timeouts.next_id ∧
    (id ∈ env.timeouts.pending_ids →
      r.1.timeouts.pending_ids = env.timeouts.pending_ids.erase id ∧ r.2.2.2 = []) ∧
    (id ∉ env.timeouts.pending_ids →
      r.1.timeouts.pending_ids = env.timeouts.pending_ids ∧ r.2.2.2 = [.warnClear id]) := by
  obtain ⟨id', hid', hcases⟩ := clear_timeout_event_inv h
  rw [hid] at hid'
  injection hid' with he
  subst he
  rcases hcases with ⟨hmem, hr⟩ | ⟨hmem, hr⟩ <;> subst hr
  · exact ⟨rfl, rfl, rfl, rfl, rfl, rfl, rfl, fun _ => ⟨rfl, rfl⟩, fun hn => absurd hmem hn⟩
  · exact ⟨rfl, rfl, rfl, rfl, rfl, rfl, rfl, fun hm => absurd hm hmem, fun _ => ⟨rfl, rfl⟩⟩

/-- C6 witness: with live set `[3]` (and entry `(9, 3)` still in the heap),
clearing id 3 removes it from the live set only; clearing the unknown id 7
warns, completes normally, and mutates nothing. -/
theorem C6_witness :
    ∃ r1 r2,
      clear_timeout_event { defaultEnv with timeouts := ⟨[⟨9, 3⟩], [3], 4⟩ }
        ⟨16, fun i => if i = 8 then 3 else 0⟩ 0 = some r1 ∧
      r1.1.timeouts.pending_ids = [] ∧ r1.1.timeouts.times = [⟨9, 3⟩] ∧
      r1.1.timeouts.next_id = 4 ∧ r1.2.2.2 = [] ∧ r1.2.2.1 = .normal ∧
      clear_timeout_event { defaultEnv with timeouts := ⟨[⟨9, 3⟩], [3], 4⟩ }
        ⟨16, fun i => if i = 8 then 7 else 0⟩ 0 = some r2 ∧
      r2.1.timeouts.pending_ids = [3] ∧ r2.1.timeouts.times = [⟨9, 3⟩] ∧
      r2.1.timeouts.next_id = 4 ∧ r2.2.2.2 = [.warnClear 7] ∧ r2.2.2.1 = .normal := by
  obtain ⟨r1, h1⟩ : ∃ x, clear_timeout_event { defaultEnv with timeouts := ⟨[⟨9, 3⟩], [3], 4⟩ }
      ⟨16, fun i => if i = 8 then 3 else 0⟩ 0 = some x := ⟨_, rfl⟩
  obtain ⟨r2, h2⟩ : ∃ x, clear_timeout_event { defaultEnv with timeouts := ⟨[⟨9, 3⟩], [3], 4⟩ }
      ⟨16, fun i => if i = 8 then 7 else 0⟩ 0 = some x := ⟨_, rfl⟩
  have c1 := C6_clear_timeout_event h1
    (show read_u32 ⟨16, fun i => if i = 8 then 3 else 0⟩ 0 0 = some 3 by decide)
  have c2 := C6_clear_timeout_event h2
    (show read_u32 ⟨16, fun i => if i = 8 then 7 else 0⟩ 0 0 = some 7 by decide)
  obtain ⟨hout1, _, _, _, _, htimes1, hnid1, hpres1, _⟩ := c1
  obtain ⟨hout2, _, _, _, _, htimes2, hnid2, _, habs2⟩ := c2
  refine ⟨r1, r2, h1, ?_, htimes1, hnid1, (hpres1 (by decide)).2, hout1,
    h2, (habs2 (by decide)).1, htimes2, hnid2, (habs2 (by decide)).2, hout2⟩
  simpa using (hpres1 (by decide)).1

/-- C8: `wasm_exit` always produces the `Exit(code)` control-flow escape with
the u32 read from slot 0, leaving environment and memory unchanged, and it is
the only call in the catalogue producing an escape: every other host call
that completes reports a normal outcome. -/
theorem C8_exit_escape {c : HostCall} {env : WasmEnv} {m : Mem} :
    (∀ sp code, read_u32 m sp 0 = some code →
      step (.wasmExit sp) env m = some (env, m, .exited code, [])) ∧
    (∀ r, step c env m = some r → (∀ sp, c ≠ .wasmExit sp) → r.2.2.1 = .normal) := by
  constructor
  · intro sp code hcode
    show wasm_exit env m sp = _
    unfold wasm_exit
    rw [hcode]
    rfl
  · intro r hr hne
    cases c with
    | wasmExit sp => exact absurd rfl (hne sp)
    | goDebug x =>
      simp only [step, go_debug, Option.some.injEq] at hr
      subst hr
      rfl
    | resetMemoryDataView x =>
      simp only [step, reset_memory_data_view, Option.some.injEq] at hr
      subst hr
      rfl
    | wasmWrite sp =>
      obtain ⟨_, _, _, _, _, _, _, _, hres⟩ := wasm_write_inv hr
      subst hres
      rfl
    | nanotime1 sp =>
      obtain ⟨_, _, hres⟩ := nanotime1_inv hr
      subst hres
      rfl
    | walltime sp =>
      obtain ⟨_, _, _, _, hres⟩ := walltime_inv hr
      subst hres
      rfl
    | walltime1 sp =>
      obtain ⟨_, _, _, _, hres⟩ := walltime1_inv hr
      subst hres
      rfl
    | scheduleTimeoutEvent sp =>
      obtain ⟨_, _, _, _, hres⟩ := schedule_timeout_event_inv hr
      subst hres
      rfl
    | clearTimeoutEvent sp =>
      obtain ⟨_, _, hres | hres⟩ := clear_timeout_event_inv hr
      · rw [hres.2]
      · rw [hres.2]
    | getRandomData sp =>
      obtain ⟨_, _, _, _, _, _, _, _, hres⟩ := get_random_data_inv hr
      subst hres
      rfl

/-- C8 witness: with exit code 7 in slot 0, `wasm_exit` yields the `exited 7`
escape with environment and memory untouched; a `go_debug` call completes
with a normal outcome. -/
theorem C8_witness :
    step (.wasmExit 0) defaultEnv ⟨16, fun i => if i = 8 then 7 else 0⟩ =
      some (defaultEnv, ⟨16, fun i => if i = 8 then 7 else 0⟩, .exited 7, []) ∧
    ∃ r, step (.goDebug 5) defaultEnv ⟨16, fun _ => 0⟩ = some r ∧ r.2.2.1 = .normal := by
  constructor
  · exact (C8_exit_escape (c := .wasmExit 0)).1 0 7 (by decide)
  · obtain ⟨r, hr⟩ : ∃ x, step (.goDebug 5) defaultEnv ⟨16, fun _ => 0⟩ = some x := ⟨_, rfl⟩
    exact ⟨r, hr, (C8_exit_escape).2 r hr (fun sp h => nomatch h)⟩

/-- C9 witness: on a 64-byte frame at base 0, slot 1 resolves to address 16;
a u8, u32 and u64 round trip each return their value, and a u64 write to
slot 1 leaves slot 3 reads unchanged. -/
theorem C9_witness :
    goOffset 0 1 = 16 ∧
    (∃ ma, write_u8 ⟨64, fun _ => 0⟩ 0 1 77 = some ma ∧ read_u8 ma 0 1 = some 77) ∧
    (∃ mb, write_u32 ⟨64, fun _ => 0⟩ 0 1 70000 = some mb ∧ read_u32 mb 0 1 = some 70000) ∧
    (∃ mc, write_u64 ⟨64, fun _ => 0⟩ 0 1 5000000000 = some mc ∧
      read_u64 mc 0 1 = some 5000000000 ∧
      read_u64 mc 0 3 = read_u64 (⟨64, fun _ => 0⟩ : Mem) 0 3) := by
  have h := @C9_slot_roundtrip ⟨64, fun _ => 0⟩ 0 1 (by decide)
  refine ⟨h.1, ?_, ?_, ?_⟩
  · obtain ⟨ma, hma⟩ : ∃ x, write_u8 ⟨64, fun _ => 0⟩ 0 1 77 = some x := ⟨_, rfl⟩
    exact ⟨ma, hma, h.2.1 77 ma (by decide) hma⟩
  · obtain ⟨mb, hmb⟩ : ∃ x, write_u32 ⟨64, fun _ => 0⟩ 0 1 70000 = some x := ⟨_, rfl⟩
    exact ⟨mb, hmb, h.2.2.1 70000 mb (by decide) hmb⟩
  · obtain ⟨mc, hmc⟩ : ∃ x, write_u64 ⟨64, fun _ => 0⟩ 0 1 5000000000 = some x := ⟨_, rfl⟩
    exact ⟨mc, hmc, h.2.2.2.1 5000000000 mc (by decide) hmc,
      (h.2.2.2.2 3 5000000000 mc (by decide) (by decide) hmc).2.2⟩

theorem runSeq_clock {cs : List HostCall} : ∀ {env : WasmEnv} {m : Mem} {env' : WasmEnv}
    {m' : Mem}, (∀ c ∈ cs, isClockCall c) → runSeq env m cs = some (env', m') →
    env.time + cs.length * env.time_interval < u64Mod →
    env'.time = env.time + cs.length * env.time_interval ∧
    env'.time_interval = env.time_interval := by
  induction cs with
  | nil =>
    intro env m env' m' _ h _
    simp only [runSeq, Option.some.injEq] at h
    injection h with h1 h2
    subst h1
    simp
  | cons c cs ih =>
    intro env m env' m' hall h hov
    simp only [runSeq] at h
    cases hs : step c env m with
    | none => rw [hs] at h; cases h
    | some r =>
      obtain ⟨e1, m1, out, evs⟩ := r
      rw [hs] at h
      have hc := step_clock_time (hall c (List.mem_cons_self c cs)) hs
      have hmul : cs.length * env.time_interval + env.time_interval =
          (cs.length + 1) * env.time_interval := by ring
      have ht1 : e1.time = env.time + env.time_interval := by
        rw [hc.1]
        apply Nat.mod_eq_of_lt
        simp only [List.length_cons] at hov
        omega
      have hint : e1.time_interval = env.time_interval := hc.2
      have hov1 : e1.time + cs.length * e1.time_interval < u64Mod := by
        rw [ht1, hint]
        simp only [List.length_cons] at hov
        omega
      obtain ⟨hfinal, hfint⟩ := ih (fun x hx => hall x (List.mem_cons_of_mem c hx)) h hov1
      constructor
      · rw [hfinal, ht1, hint]
        simp only [List.length_cons]
        omega
      · rw [hfint, hint]

/-- C3 counterexample: the virtual clock is a wrapping u64. Starting from an
environment whose clock holds `2^64 - 1 - 10^7`, the first clock query
observes `2^64 - 1` and the second wraps around to `10^7 - 1`: the observed
sequence decreases, and the second value is not the first plus
`time_interval`, so the claim's unqualified monotonicity over every
environment state fails. -/
theorem C3_counterexample :
    ∃ r1 r2,
      step (.nanotime1 0) { defaultEnv with time := u64Mod - 1 - 10000000 }
        ⟨16, fun _ => 0⟩ = some r1 ∧
      step (.nanotime1 0) r1.1 r1.2.1 = some r2 ∧
      r1.1.time = u64Mod - 1 ∧
      r2.1.time = 10000000 - 1 ∧
      r2.1.time < r1.1.time ∧
      r2.1.time ≠ r1.1.time + r1.1.time_interval := by
  refine ⟨_, _, rfl, rfl, ?_, ?_, ?_, ?_⟩ <;> decide

/-- C3 (amended): each clock query (`nanotime1`, `walltime`, `walltime1`)
sets the clock to `time + time_interval` reduced modulo 2^64 — which is an
increase by exactly `time_interval` whenever the u64 addition does not
overflow — no other host call changes the clock, and along any sequence of
clock queries that stays below 2^64 the observed values grow by exactly
`time_interval` per call and are monotonically non-decreasing. -/
theorem C3_clock_amended {c : HostCall} {env : WasmEnv} {m : Mem} {r : CallResult} :
    (isClockCall c → step c env m = some r →
      r.1.time = (env.time + env.time_interval) % u64Mod ∧
      r.1.time_interval = env.time_interval ∧
      (env.time + env.time_interval < u64Mod →
        r.1.time = env.time + env.time_interval ∧ env.time ≤ r.1.time)) ∧
    (¬ isClockCall c → step c env m = some r → r.1.time = env.time) ∧
    (∀ cs env' m', (∀ x ∈ cs, isClockCall x) → runSeq env m cs = some (env', m') →
      env.time + cs.length * env.time_interval < u64Mod →
      env'.time = env.time + cs.length * env.time_interval ∧ env.time ≤ env'.time) := by
  refine ⟨?_, ?_, ?_⟩
  · intro hc hstep
    have h := step_clock_time hc hstep
    refine ⟨h.1, h.2, ?_⟩
    intro hov
    have : r.1.time = env.time + env.time_interval := by
      rw [h.1]
      exact Nat.mod_eq_of_lt hov
    exact ⟨this, by omega⟩
  · intro hc hstep
    exact step_nonclock_time hc hstep
  · intro cs env' m' hall hrun hov
    obtain ⟨hfinal, _⟩ := runSeq_clock hall hrun hov
    exact ⟨hfinal, by omega⟩

/-- C3 witness: from the default environment a single `nanotime1` call sets
the clock to exactly 10^7 ns, and a `nanotime1`/`walltime1` pair observed in
sequence reaches exactly 2 * 10^7 ns, non-decreasing. -/
theorem C3_witness :
    (∃ r, step (.nanotime1 0) defaultEnv ⟨32, fun _ => 0⟩ = some r ∧
      r.1.time = 10000000) ∧
    (∃ q, runSeq defaultEnv ⟨32, fun _ => 0⟩ [.nanotime1 0, .walltime1 0] = some q ∧
      q.1.time = 20000000 ∧ defaultEnv.time ≤ q.1.time) := by
  constructor
  · obtain ⟨r, hr⟩ : ∃ x, step (.nanotime1 0) defaultEnv ⟨32, fun _ => 0⟩ = some x := ⟨_, rfl⟩
    have c := (C3_clock_amended (c := .nanotime1 0)).1 trivial hr
    exact ⟨r, hr, ((c.2.2 (by decide)).1 : _)⟩
  · obtain ⟨q, hq⟩ : ∃ x, runSeq defaultEnv ⟨32, fun _ => 0⟩
        [.nanotime1 0, .walltime1 0] = some x := ⟨_, rfl⟩
    obtain ⟨q1, q2⟩ := q
    have c := (C3_clock_amended (c := .nanotime1 0)
        (m := ⟨32, fun _ => 0⟩) (r := (defaultEnv, ⟨32, fun _ => 0⟩, .normal, []))).2.2
      [.nanotime1 0, .walltime1 0] q1 q2
      (by
        intro x hx
        rcases List.mem_cons.mp hx with rfl | hx2
        · trivial
        · rcases List.mem_cons.mp hx2 with rfl | hx3
          · trivial
          · cases hx3) hq (by decide)
    exact ⟨(q1, q2), hq, c.1, c.2⟩

/-- C4: a random fill of `len` bytes at `ptr` (in bounds) writes exactly the
bytes of `randBytes`: `len / 4` whole generator outputs little-endian at
`ptr`, `ptr + 4`, …, and for `len % 4` in {1, 2, 3} the low `len % 4` bytes
of exactly one extra generator output — produced least-significant byte
first, shifting right by 8 per byte, so the trailing bytes are byte0, byte1,
byte2 of that one extra output, regardless of how many words preceded them. -/
theorem C4_random_fill {m : Mem} {ptr len : Nat} {rng : Pcg32}
    (h1 : ptr + len ≤ m.size) (h2 : m.size ≤ u32Mod) :
    (∃ m', fillRandom m ptr len rng = some (m', (randBytes rng len).2) ∧
      readBytes m' ptr len = some (randBytes rng len).1 ∧
      (∀ i, i < ptr ∨ ptr + len ≤ i → m'.data i = m.data i)) ∧
    (randBytes rng len).1 =
      ((pcgWords rng (len / 4)).1.map (leBytes 4)).flatten ++
        (if len % 4 = 0 then []
         else leBytes (len % 4) (pcgNext (pcgWords rng (len / 4)).2).1) ∧
    (randBytes rng len).2 =
      (if len % 4 = 0 then (pcgWords rng (len / 4)).2
       else (pcgNext (pcgWords rng (len / 4)).2).2) ∧
    (∀ w, leBytes 3 w = [w % 256, w / 256 % 256, w / 65536 % 256]) ∧
    (∀ w k, k ≤ 4 → leBytes k w = (leBytes 4 w).take k) := by
  refine ⟨?_, ?_, ?_, ?_, ?_⟩
  · obtain ⟨m', hfill, hsz, hread, hout⟩ := @fillRandom_spec m ptr len rng h1 h2
    exact ⟨m', hfill, hread, hout⟩
  · unfold randBytes
    by_cases h0 : len % 4 = 0
    · rw [if_pos h0, if_pos h0]
      simp
    · rw [if_neg h0, if_neg h0]
  · unfold randBytes
    by_cases h0 : len % 4 = 0
    · rw [if_pos h0, if_pos h0]
    · rw [if_neg h0, if_neg h0]
  · intro w
    show w % 256 :: leBytes 2 (w / 256) = _
    have : w / 256 / 256 = w / 65536 := by
      rw [Nat.div_div_eq_div_mul]
    simp [leBytes, this]
  · intro w k hk
    exact (leBytes_take k 4 w hk).symm

/-- C4 witness: filling 6 bytes from the default seed writes the bytes of one
whole output followed by the two low bytes of a second output; concretely the
bytes are `[234, 148, 85, 40, 73, 163]`, and the trailing pair are byte0 and
byte1 of the second generator output. -/
theorem C4_witness :
    (∃ m', fillRandom ⟨16, fun _ => 0⟩ 0 6 defaultEnv.rng =
        some (m', (randBytes defaultEnv.rng 6).2) ∧
      readBytes m' 0 6 = some (randBytes defaultEnv.rng 6).1) ∧
    (randBytes defaultEnv.rng 6).1 = [234, 148, 85, 40, 73, 163] ∧
    leBytes 2 (pcgNext (pcgWords defaultEnv.rng 1).2).1 = [73, 163] := by
  refine ⟨?_, by decide, by decide⟩
  obtain ⟨⟨m', hfill, hread, _⟩, _⟩ :=
    @C4_random_fill ⟨16, fun _ => 0⟩ 0 6 defaultEnv.rng
      (by decide : (0:Nat) + 6 ≤ 16) (by decide)
  exact ⟨m', hfill, hread⟩

theorem get_random_data_eq {env : WasmEnv} {m : Mem} {sp p len : Nat}
    (hp : read_u64 m sp 0 = some p) (hlt : p < u32Mod)
    (hl : read_u64 m sp 1 = some len) :
    get_random_data env m sp = (fillRandom m p len env.rng).map
      (fun q => ({ env with rng := q.2 }, q.1, Outcome.normal, [])) := by
  unfold get_random_data
  rw [hp]
  simp only [Option.pure_def, Option.bind_eq_bind, Option.some_bind]
  rw [if_pos hlt, hl]
  simp only [Option.some_bind]
  cases fillRandom m p len env.rng with
  | none => rfl
  | some q => rfl

/-- C5: random-fill is deterministic and reads no guest memory: for two
environments with equal RNG states and completed fills of the same length at
arbitrary pointers over arbitrary (in-bounds) memories, the written byte
ranges are byte-identical, equal to `randBytes` of the shared RNG state, and
the advanced RNG states coincide — so two sessions from the default
environment (whose generator is the fixed Pcg32 seed
`0xcafef00dd15ea5e5` / `0xa02bdbf7bb3c0a7`) issuing the same lengths write
identical data at every call. -/
theorem C5_random_fill_deterministic {env1 env2 : WasmEnv} {m1 m2 : Mem}
    {sp1 sp2 p1 p2 len : Nat}
    (hrng : env1.rng = env2.rng)
    (hp1 : read_u64 m1 sp1 0 = some p1) (hl1 : read_u64 m1 sp1 1 = some len)
    (hp2 : read_u64 m2 sp2 0 = some p2) (hl2 : read_u64 m2 sp2 1 = some len)
    (hq1 : p1 < u32Mod) (hb1 : p1 + len ≤ m1.size) (hs1 : m1.size ≤ u32Mod)
    (hq2 : p2 < u32Mod) (hb2 : p2 + len ≤ m2.size) (hs2 : m2.size ≤ u32Mod) :
    ∃ r1 r2, get_random_data env1 m1 sp1 = some r1 ∧
      get_random_data env2 m2 sp2 = some r2 ∧
      readBytes r1.2.1 p1 len = readBytes r2.2.1 p2 len ∧
      readBytes r1.2.1 p1 len = some (randBytes env1.rng len).1 ∧
      r1.1.rng = r2.1.rng ∧
      defaultEnv.rng = pcgNew 0xcafef00dd15ea5e5 0xa02bdbf7bb3c0a7 := by
  obtain ⟨n1, hfill1, _, hread1, _⟩ := @fillRandom_spec m1 p1 len env1.rng hb1 hs1
  obtain ⟨n2, hfill2, _, hread2, _⟩ := @fillRandom_spec m2 p2 len env2.rng hb2 hs2
  refine ⟨({ env1 with rng := (randBytes env1.rng len).2 }, n1, .normal, []),
    ({ env2 with rng := (randBytes env2.rng len).2 }, n2, .normal, []), ?_, ?_, ?_, ?_, ?_, rfl⟩
  · rw [get_random_data_eq hp1 hq1 hl1, hfill1]
    rfl
  · rw [get_random_data_eq hp2 hq2 hl2, hfill2]
    rfl
  · show readBytes n1 p1 len = readBytes n2 p2 len
    rw [hread1, hread2, hrng]
  · exact hread1
  · show (randBytes env1.rng len).2 = (randBytes env2.rng len).2
    rw [hrng]

/-- C5 witness: two sessions with the default generator but different
memories, frame pointers and destinations, both filling 6 bytes, write the
same golden byte sequence `[234, 148, 85, 40, 73, 163]`. -/
theorem C5_witness :
    ∃ r1 r2,
      get_random_data defaultEnv
        ⟨64, fun i => if i = 8 then 32 else if i = 16 then 6 else 0⟩ 0 = some r1 ∧
      get_random_data defaultEnv
        ⟨72, fun i => if i = 8 then 40 else if i = 16 then 6 else if i = 70 then 9 else 0⟩ 0 =
        some r2 ∧
      readBytes r1.2.1 32 6 = readBytes r2.2.1 40 6 ∧
      readBytes r1.2.1 32 6 = some [234, 148, 85, 40, 73, 163] := by
  obtain ⟨r1, r2, h1, h2, heq, hval, _, _⟩ :=
    @C5_random_fill_deterministic defaultEnv defaultEnv
      ⟨64, fun i => if i = 8 then 32 else if i = 16 then 6 else 0⟩
      ⟨72, fun i => if i = 8 then 40 else if i = 16 then 6 else if i = 70 then 9 else 0⟩
      0 0 32 40 6
      rfl (by decide) (by decide) (by decide) (by decide)
      (by decide) (by decide) (by decide) (by decide) (by decide) (by decide)
  refine ⟨r1, r2, h1, h2, heq, ?_⟩
  rw [hval]
  decide

/-- C10 counterexample: `next_id` is a wrapping u32 counter (`next_id += 1`).
After one schedule from the empty state it holds 1; continuing the same run
with 2^32 - 1 further schedules wraps it back to 0 < 1, and the next schedule
from that state returns id 0, smaller than the id 1 returned by the second
call of the run — so the claim's unbounded monotonicity fails on the code. -/
theorem C10_counterexample :
    (runT initTS (List.replicate 1 (.sched 0))).next_id = 1 ∧
    (runT (runT initTS (List.replicate 1 (.sched 0)))
      (List.replicate (u32Mod - 1) (.sched 0))).next_id = 0 ∧
    schedIds initTS (List.replicate 2 (.sched 0)) = [0, 1] ∧
    (0 : Nat) < 1 := by
  have h1 : (runT initTS (List.replicate 1 (.sched 0))).next_id = 1 := by decide
  have h2 : (runT (runT initTS (List.replicate 1 (.sched 0)))
      (List.replicate (u32Mod - 1) (.sched 0))).next_id = 0 := by
    have h := @runT_next_id (List.replicate (u32Mod - 1) (.sched 0))
      (runT initTS (List.replicate 1 (.sched 0))) (by rw [h1]; decide)
    rw [h, h1, countSched_replicate]
    decide
  exact ⟨h1, h2, by decide, by decide⟩

/-- C10 (amended): as long as fewer than 2^32 ids are allocated, `next_id`
equals the number of schedule calls performed (hence is monotonically
non-decreasing over every prefix of the sequence), the ids returned by
successive schedule calls are 0, 1, 2, … — each strictly greater than every
previously returned id — and every id in the live set and every id in the
ordered structure is strictly below `next_id`, at every state reachable from
the empty initial timer state. -/
theorem C10_ids_amended {ops : List TOp} (h : countSched ops < u32Mod) :
    (runT initTS ops).next_id = countSched ops ∧
    schedIds initTS ops = List.range (countSched ops) ∧
    List.Pairwise (· < ·) (schedIds initTS ops) ∧
    (∀ pre suf, ops = pre ++ suf →
      (runT initTS pre).next_id ≤ (runT initTS ops).next_id) ∧
    (∀ id ∈ (runT initTS ops).pending_ids, id < (runT initTS ops).next_id) ∧
    (∀ ti ∈ (runT initTS ops).times, ti.id < (runT initTS ops).next_id) := by
  have hcount : initTS.next_id + countSched ops < u32Mod := by
    show 0 + countSched ops < u32Mod
    omega
  obtain ⟨hnid, hpend, htimes⟩ := runT_invariant hcount
    (by intro i hi; cases hi) (by intro t ht; cases ht)
  have hids : schedIds initTS ops = List.range (countSched ops) := by
    rw [schedIds_eq hcount]
    have hmapid : (List.range (countSched ops)).map (initTS.next_id + ·) =
        (List.range (countSched ops)).map id := by
      apply List.map_congr_left
      intro i _
      show 0 + i = i
      omega
    rw [hmapid, List.map_id]
  refine ⟨?_, hids, ?_, ?_, hpend, htimes⟩
  · rw [hnid]
    show 0 + countSched ops = countSched ops
    omega
  · rw [hids]
    exact List.pairwise_lt_range (countSched ops)
  · intro pre suf heq
    subst heq
    have hcp : initTS.next_id + countSched pre < u32Mod := by
      rw [countSched_append] at h
      show 0 + countSched pre < u32Mod
      omega
    obtain ⟨hpre, _, _⟩ := @runT_invariant pre initTS hcp
      (by intro i hi; cases hi) (by intro t ht; cases ht)
    rw [hpre, hnid, countSched_append]
    omega

/-- C10 witness: for the sequence schedule, cancel 0, schedule from the empty
state, the allocator ends at 2, the returned ids are `[0, 1]` strictly
increasing, and live set and heap only hold ids below `next_id`. -/
theorem C10_witness :
    (runT initTS [.sched 5, .cancel 0, .sched 7]).next_id = 2 ∧
    schedIds initTS [.sched 5, .cancel 0, .sched 7] = [0, 1] ∧
    List.Pairwise (· < ·) (schedIds initTS [.sched 5, .cancel 0, .sched 7]) ∧
    (∀ id ∈ (runT initTS [.sched 5, .cancel 0, .sched 7]).pending_ids, id < 2) := by
  have h := @C10_ids_amended [.sched 5, .cancel 0, .sched 7] (by decide)
  refine ⟨?_, ?_, h.2.2.1, ?_⟩
  · rw [h.1]
    decide
  · rw [h.2.1]
    decide
  · intro id hid
    have := h.2.2.2.2.1 id hid
    rw [h.1] at this
    exact this

end NitroJit
